import Mathlib

/-! A record store over a JSON file: model and verification.

Shallow embedding of `main.go`: a command-line tool that keeps a list of user
records as a JSON array in a file and supports `add`, `list`, `findById` and
`remove`.

Conventions of the embedding.

* Go strings are Lean `String`s (valid Unicode text); texts handed to the JSON
  codec are `List Char`.
* Go `int` is the 64-bit two's complement integer of the usual platforms: a Lean
  `Int` in the range `-2^63 ≤ n < 2^63`.
* The file system and the `io.Writer` are explicit state (`World`, `Writer`);
  every operation returns the error it would return in Go together with the
  state it leaves.
* `encoding/json` is modelled concretely (`Json` section): `Marshal` for `User`
  and `[]User`, and `Unmarshal` into `User` and `[]User`.
-/

namespace Store

/-! ## Data model -/

/-- The record type `User` of `main.go`; the JSON keys are `id`, `email`, `age`. -/
structure User where
  ID : String
  Email : String
  Age : Int
deriving DecidableEq, Repr

/-- The zero value `User{}`. -/
def User.zero : User := ⟨"", "", 0⟩

/-- Range of a Go `int` on a 64-bit platform. -/
def inInt64 (n : Int) : Prop := -(2 : Int) ^ 63 ≤ n ∧ n < (2 : Int) ^ 63

instance (n : Int) : Decidable (inInt64 n) := by
  unfold inInt64; exact inferInstance

/-- A `User` value that a Go program can hold: its `Age` fits a Go `int`. -/
def User.valid (u : User) : Prop := inInt64 u.Age

instance (u : User) : Decidable u.valid := by
  unfold User.valid; exact inferInstance

/-! ## `encoding/json`: encoder -/

namespace Json

/-- Hexadecimal digit (lower case) of a number below 16, as `encoding/json` writes it. -/
def hexDigit (n : Nat) : Char :=
  if n < 10 then Char.ofNat (48 + n) else Char.ofNat (87 + n)

/-- The escape `\u00XY` / `\uWXYZ` of a code point below `0x10000`. -/
def uEscape (n : Nat) : List Char :=
  ['\\', 'u', hexDigit (n / 4096 % 16), hexDigit (n / 256 % 16),
    hexDigit (n / 16 % 16), hexDigit (n % 16)]

/-- How `Marshal` writes one character of a string: the quote and the backslash
are escaped with a backslash, newline, carriage return and tab as `\n`, `\r`,
`\t`, the other control characters and `<`, `>`, `&`, U+2028, U+2029 as `\uXXXX`,
everything else verbatim. (Later releases of the library write U+0008 and U+000C
as `\b` and `\f`; the decoder reads both forms as the same character.) -/
def escapeChar (c : Char) : List Char :=
  if c = '"' then ['\\', '"']
  else if c = '\\' then ['\\', '\\']
  else if c = '\n' then ['\\', 'n']
  else if c = '\r' then ['\\', 'r']
  else if c = '\t' then ['\\', 't']
  else if c.toNat < 32 ∨ c = '<' ∨ c = '>' ∨ c = '&' ∨ c.toNat = 8232 ∨ c.toNat = 8233 then
    uEscape c.toNat
  else [c]

/-- The body of an encoded string (without the surrounding quotes). -/
def escapeChars : List Char → List Char
  | [] => []
  | c :: cs => escapeChar c ++ escapeChars cs

/-- `Marshal` of a Go string. -/
def encodeString (s : String) : List Char :=
  '"' :: (escapeChars s.data ++ ['"'])

/-- Decimal digits of a natural number, most significant first, prepended to `acc`
(`fuel` bounds the number of digits). -/
def natDigits : Nat → Nat → List Char → List Char
  | 0, _, acc => acc
  | fuel + 1, n, acc =>
    if n < 10 then Char.ofNat (48 + n) :: acc
    else natDigits fuel (n / 10) (Char.ofNat (48 + n % 10) :: acc)

/-- `strconv.FormatInt(n, 10)`: what `Marshal` writes for an `int`. -/
def formatInt (n : Int) : List Char :=
  if n < 0 then '-' :: natDigits (n.natAbs + 1) n.natAbs []
  else natDigits (n.natAbs + 1) n.natAbs []

/-- `Marshal(&user)`: the fields in declaration order under their JSON keys. -/
def encodeUser (u : User) : List Char :=
  ['{', '"', 'i', 'd', '"', ':'] ++ encodeString u.ID
    ++ [',', '"', 'e', 'm', 'a', 'i', 'l', '"', ':'] ++ encodeString u.Email
    ++ [',', '"', 'a', 'g', 'e', '"', ':'] ++ formatInt u.Age ++ ['}']

/-- The elements of an encoded array, separated by commas. -/
def encodeElems : List User → List Char
  | [] => []
  | [u] => encodeUser u
  | u :: us => encodeUser u ++ ',' :: encodeElems us

/-- `Marshal(&users)` for a non-nil slice: a JSON array, `[]` when empty. -/
def encodeUsers (us : List User) : List Char :=
  '[' :: (encodeElems us ++ [']'])

/-! ## `encoding/json`: decoder -/

/-- A parsed JSON value; a number keeps its literal text. -/
inductive Value where
  | null
  | bool (b : Bool)
  | num (lit : List Char)
  | str (s : List Char)
  | arr (xs : List Value)
  | obj (kvs : List (List Char × Value))

/-- The scanner's white space: space, tab, carriage return, newline. -/
def isSpace (c : Char) : Bool :=
  c = ' ' || c = '\t' || c = '\r' || c = '\n'

/-- Skip leading white space. -/
def skipSpace : List Char → List Char
  | [] => []
  | c :: cs => if isSpace c then skipSpace cs else c :: cs

/-- Value of a hexadecimal digit, either case. -/
def hexVal (c : Char) : Option Nat :=
  if 48 ≤ c.toNat ∧ c.toNat ≤ 57 then some (c.toNat - 48)
  else if 97 ≤ c.toNat ∧ c.toNat ≤ 102 then some (c.toNat - 87)
  else if 65 ≤ c.toNat ∧ c.toNat ≤ 70 then some (c.toNat - 55)
  else none

/-- Four hexadecimal digits, as after `\u` (`getu4` without the `\u`). -/
def hex4 : List Char → Option (Nat × List Char)
  | a :: b :: c :: d :: rest =>
    match hexVal a, hexVal b, hexVal c, hexVal d with
    | some x, some y, some z, some w => some (x * 4096 + y * 256 + z * 16 + w, rest)
    | _, _, _, _ => none
  | _ => none

/-- A whole escape `\uXXXX` (`getu4`). -/
def getu4 : List Char → Option (Nat × List Char)
  | b :: u :: rest => if b = '\\' ∧ u = 'u' then hex4 rest else none
  | _ => none

/-- The character of a one-letter escape. -/
def unescape (e : Char) : Option Char :=
  if e = '"' then some '"'
  else if e = '\\' then some '\\'
  else if e = '/' then some '/'
  else if e = 'b' then some (Char.ofNat 8)
  else if e = 'f' then some (Char.ofNat 12)
  else if e = 'n' then some '\n'
  else if e = 'r' then some '\r'
  else if e = 't' then some '\t'
  else none

/-- Put a decoded character in front of the rest of a decoded string. -/
def pushChar (c : Char) : Option (List Char × List Char) → Option (List Char × List Char)
  | none => none
  | some (s, rest) => some (c :: s, rest)

/-- What `unquote` produces for `\uXXXX` with code `r`, looking at what follows:
a high surrogate followed by an escaped low surrogate is the combined character
and consumes both; any other surrogate is U+FFFD. -/
def decodeU (r : Nat) (rest : List Char) : Char × List Char :=
  if 55296 ≤ r ∧ r < 57344 then
    match getu4 rest with
    | some (r1, rest1) =>
      if r < 56320 ∧ 56320 ≤ r1 ∧ r1 < 57344 then
        (Char.ofNat ((r - 55296) * 1024 + (r1 - 56320) + 65536), rest1)
      else (Char.ofNat 65533, rest)
    | none => (Char.ofNat 65533, rest)
  else (Char.ofNat r, rest)

/-- The characters of a string literal after its opening quote, decoded, and the
text after its closing quote (scanner and `unquote` in one pass). -/
def parseChars : Nat → List Char → Option (List Char × List Char)
  | 0, _ => none
  | _ + 1, [] => none
  | fuel + 1, c :: cs =>
    if c = '"' then some ([], cs)
    else if c = '\\' then
      match cs with
      | [] => none
      | e :: cs1 =>
        if e = 'u' then
          match hex4 cs1 with
          | none => none
          | some (r, cs2) => pushChar (decodeU r cs2).1 (parseChars fuel (decodeU r cs2).2)
        else
          match unescape e with
          | none => none
          | some ch => pushChar ch (parseChars fuel cs1)
    else if c.toNat < 32 then none
    else pushChar c (parseChars fuel cs)

/-- A string literal after its opening quote. Every step consumes a character,
so the length of the text is fuel enough. -/
def parseString (cs : List Char) : Option (List Char × List Char) :=
  parseChars cs.length cs

/-- Decimal digit test. -/
def isDigit (c : Char) : Bool := decide (48 ≤ c.toNat ∧ c.toNat ≤ 57)

/-- The longest run of digits at the front, and the rest. -/
def spanDigits : List Char → List Char × List Char
  | [] => ([], [])
  | c :: cs => if isDigit c then ((c :: (spanDigits cs).1), (spanDigits cs).2) else ([], c :: cs)

/-- The integer part of a number: `0`, or a non-zero digit and more digits. -/
def scanIntPart : List Char → Option (List Char × List Char)
  | [] => none
  | c :: cs =>
    if c = '0' then some (['0'], cs)
    else if isDigit c then some (c :: (spanDigits cs).1, (spanDigits cs).2)
    else none

/-- The optional fraction: a dot and at least one digit. -/
def scanFrac : List Char → Option (List Char × List Char)
  | [] => some ([], [])
  | c :: cs =>
    if c = '.' then
      match spanDigits cs with
      | ([], _) => none
      | (ds, rest) => some ('.' :: ds, rest)
    else some ([], c :: cs)

/-- At least one digit, with the text before it kept. -/
def scanExpDigits (pre : List Char) (cs : List Char) : Option (List Char × List Char) :=
  match spanDigits cs with
  | ([], _) => none
  | (ds, rest) => some (pre ++ ds, rest)

/-- The optional exponent: `e` or `E`, an optional sign, at least one digit. -/
def scanExp : List Char → Option (List Char × List Char)
  | [] => some ([], [])
  | c :: cs =>
    if c = 'e' ∨ c = 'E' then
      match cs with
      | [] => none
      | s :: cs1 =>
        if s = '+' ∨ s = '-' then scanExpDigits [c, s] cs1 else scanExpDigits [c] (s :: cs1)
    else some ([], c :: cs)

/-- A number without its sign: integer part, fraction, exponent. -/
def scanUnsigned (cs : List Char) : Option (List Char × List Char) :=
  match scanIntPart cs with
  | none => none
  | some (ip, r1) =>
    match scanFrac r1 with
    | none => none
    | some (fp, r2) =>
      match scanExp r2 with
      | none => none
      | some (ep, r3) => some (ip ++ fp ++ ep, r3)

/-- A number literal and the text after it. -/
def scanNumber : List Char → Option (List Char × List Char)
  | [] => none
  | c :: cs =>
    if c = '-' then
      match scanUnsigned cs with
      | none => none
      | some (lit, rest) => some ('-' :: lit, rest)
    else scanUnsigned (c :: cs)

/-- Remove the literal `lit` from the front of the text. -/
def dropLit : List Char → List Char → Option (List Char)
  | [], cs => some cs
  | _ :: _, [] => none
  | l :: ls, c :: cs => if l = c then dropLit ls cs else none

/-- The scanner's bound on the nesting of arrays and objects. -/
def maxNestingDepth : Nat := 10000

mutual
/-- One JSON value at the front of the text (no leading white space), inside
`depth` open arrays and objects. -/
def parseValue : Nat → Nat → List Char → Option (Value × List Char)
  | 0, _, _ => none
  | _ + 1, _, [] => none
  | fuel + 1, depth, c :: cs =>
    if c = '{' then
      if maxNestingDepth ≤ depth then none
      else
        match skipSpace cs with
        | [] => none
        | d :: cs1 =>
          if d = '}' then some (Value.obj [], cs1)
          else
            match parseMembers fuel (depth + 1) (d :: cs1) with
            | none => none
            | some (kvs, rest) => some (Value.obj kvs, rest)
    else if c = '[' then
      if maxNestingDepth ≤ depth then none
      else
        match skipSpace cs with
        | [] => none
        | d :: cs1 =>
          if d = ']' then some (Value.arr [], cs1)
          else
            match parseElems fuel (depth + 1) (d :: cs1) with
            | none => none
            | some (xs, rest) => some (Value.arr xs, rest)
    else if c = '"' then
      match parseString cs with
      | none => none
      | some (s, rest) => some (Value.str s, rest)
    else if c = 't' then (dropLit ['r', 'u', 'e'] cs).map fun rest => (Value.bool true, rest)
    else if c = 'f' then (dropLit ['a', 'l', 's', 'e'] cs).map fun rest => (Value.bool false, rest)
    else if c = 'n' then (dropLit ['u', 'l', 'l'] cs).map fun rest => (Value.null, rest)
    else
      match scanNumber (c :: cs) with
      | none => none
      | some (lit, rest) => some (Value.num lit, rest)
/-- The elements of an array after `[` or a comma (no leading white space), up
to and including the closing `]`. -/
def parseElems : Nat → Nat → List Char → Option (List Value × List Char)
  | 0, _, _ => none
  | fuel + 1, depth, cs =>
    match parseValue fuel depth cs with
    | none => none
    | some (v, cs1) =>
      match skipSpace cs1 with
      | [] => none
      | d :: cs2 =>
        if d = ']' then some ([v], cs2)
        else if d = ',' then
          match parseElems fuel depth (skipSpace cs2) with
          | none => none
          | some (vs, rest) => some (v :: vs, rest)
        else none
/-- The members of an object after `{` or a comma (no leading white space), up
to and including the closing `}`. -/
def parseMembers : Nat → Nat → List Char → Option (List (List Char × Value) × List Char)
  | 0, _, _ => none
  | _ + 1, _, [] => none
  | fuel + 1, depth, q :: cs =>
    if q = '"' then
      match parseString cs with
      | none => none
      | some (key, cs1) =>
        match skipSpace cs1 with
        | [] => none
        | col :: cs2 =>
          if col = ':' then
            match parseValue fuel depth (skipSpace cs2) with
            | none => none
            | some (v, cs3) =>
              match skipSpace cs3 with
              | [] => none
              | d :: cs4 =>
                if d = '}' then some ([(key, v)], cs4)
                else if d = ',' then
                  match parseMembers fuel depth (skipSpace cs4) with
                  | none => none
                  | some (kvs, rest) => some ((key, v) :: kvs, rest)
                else none
          else none
    else none
end

/-- The syntax check and parse of `Unmarshal`: the text is one JSON value with
optional white space around it. Every recursive call but the first of an array
or object consumes a character, so twice the length is fuel enough. -/
def parseJson (data : List Char) : Option Value :=
  match parseValue (2 * data.length + 2) 0 (skipSpace data) with
  | none => none
  | some (v, rest) => if skipSpace rest = [] then some v else none

/-! ## `encoding/json`: storing a parsed value into `User` and `[]User` -/

/-- The fields of `User`. -/
inductive Field where
  | id
  | email
  | age
deriving DecidableEq

/-- The field an object key addresses: the JSON name of the field, compared
without regard to the case of ASCII letters (the exact name is one such match,
and no two field names differ by case only). -/
def fieldOf (key : List Char) : Option Field :=
  if key.map Char.toLower = ['i', 'd'] then some Field.id
  else if key.map Char.toLower = ['e', 'm', 'a', 'i', 'l'] then some Field.email
  else if key.map Char.toLower = ['a', 'g', 'e'] then some Field.age
  else none

/-- Value of a run of decimal digits, continuing from `acc`. -/
def digitsVal (acc : Nat) (ds : List Char) : Nat :=
  ds.foldl (fun n c => n * 10 + (c.toNat - 48)) acc

/-- `strconv.ParseInt(lit, 10, 64)` on a JSON number literal: an optional minus
and digits only (a fraction or an exponent is a syntax error), in `int64` range. -/
def parseInt64 (lit : List Char) : Option Int :=
  match lit with
  | [] => none
  | c :: cs =>
    if c = '-' then
      if cs ≠ [] ∧ cs.all isDigit = true ∧ inInt64 (-(digitsVal 0 cs : Int)) then
        some (-(digitsVal 0 cs : Int))
      else none
    else
      if (c :: cs).all isDigit = true ∧ inInt64 (digitsVal 0 (c :: cs) : Int) then
        some (digitsVal 0 (c :: cs) : Int)
      else none

/-- Store a JSON value into one field: `null` leaves the field as it is, a
string goes into a string field and an integer number into the `int` field; any
other combination is an `UnmarshalTypeError`. -/
def setField (u : User) : Field → Value → Option User
  | _, Value.null => some u
  | Field.id, Value.str s => some { u with ID := String.mk s }
  | Field.email, Value.str s => some { u with Email := String.mk s }
  | Field.age, Value.num lit =>
    match parseInt64 lit with
    | none => none
    | some n => some { u with Age := n }
  | _, _ => none

/-- Store the members of an object into a `User`, in order (a later duplicate
key overwrites an earlier one); keys that address no field are skipped. -/
def setMembers (u : User) : List (List Char × Value) → Option User
  | [] => some u
  | (key, v) :: kvs =>
    match fieldOf key with
    | none => setMembers u kvs
    | some f =>
      match setField u f v with
      | none => none
      | some u1 => setMembers u1 kvs

/-- Store a JSON value into a `User`: `null` leaves it as it is, an object sets
its fields, anything else is an `UnmarshalTypeError`. -/
def storeUser (u : User) : Value → Option User
  | Value.null => some u
  | Value.obj kvs => setMembers u kvs
  | _ => none

/-- Store the elements of an array into fresh `User` values. -/
def storeElems : List Value → Option (List User)
  | [] => some []
  | v :: vs =>
    match storeUser User.zero v with
    | none => none
    | some u =>
      match storeElems vs with
      | none => none
      | some us => some (u :: us)

/-- Store a JSON value into a `[]User`: `null` gives the nil slice, an array
its elements, anything else is an `UnmarshalTypeError`. -/
def storeUsers : Value → Option (List User)
  | Value.null => some []
  | Value.arr vs => storeElems vs
  | _ => none

/-- `json.Unmarshal(data, &user)` with `user` the zero `User`: `none` stands for
any error (syntax or type), `some u` for the value left in `user`. -/
def unmarshalUser (data : List Char) : Option User :=
  match parseJson data with
  | none => none
  | some v => storeUser User.zero v

/-- `json.Unmarshal(data, &allUsers)` with `allUsers` an empty slice. -/
def unmarshalUsers (data : List Char) : Option (List User) :=
  match parseJson data with
  | none => none
  | some v => storeUsers v

/-! ### Auxiliary notions for the codec proofs -/

/-- A character that ends a number: no digit, no dot, no exponent mark. -/
def endsNumber (c : Char) : Prop := isDigit c = false ∧ c ≠ '.' ∧ c ≠ 'e' ∧ c ≠ 'E'

/-- A value that is not a number: its text ends with a closing character of its
own, so the parse does not depend on what follows it. -/
def notNum : Value → Prop
  | Value.num _ => False
  | _ => True

/-- Parsing a value is stable under more fuel and a longer text: what is parsed
from `cs` is parsed from `cs ++ ext`, with `ext` left over. -/
def ValueStable (ext : List Char) (fuel : Nat) : Prop :=
  ∀ depth cs v r, parseValue fuel depth cs = some (v, r) → (r ≠ [] ∨ notNum v) →
    ∀ fuel1, fuel ≤ fuel1 → parseValue fuel1 depth (cs ++ ext) = some (v, r ++ ext)

/-- The same stability for the elements of an array. -/
def ElemsStable (ext : List Char) (fuel : Nat) : Prop :=
  ∀ depth cs vs r, parseElems fuel depth cs = some (vs, r) →
    ∀ fuel1, fuel ≤ fuel1 → parseElems fuel1 depth (cs ++ ext) = some (vs, r ++ ext)

/-- The same stability for the members of an object. -/
def MembersStable (ext : List Char) (fuel : Nat) : Prop :=
  ∀ depth cs kvs r, parseMembers fuel depth cs = some (kvs, r) →
    ∀ fuel1, fuel ≤ fuel1 → parseMembers fuel1 depth (cs ++ ext) = some (kvs, r ++ ext)

/-- The JSON value that the encoding of a `User` parses to. -/
def userValue (u : User) : Value :=
  Value.obj [(['i', 'd'], Value.str u.ID.data), (['e', 'm', 'a', 'i', 'l'], Value.str u.Email.data),
    (['a', 'g', 'e'], Value.num (formatInt u.Age))]

end Json

/-! ## Environment: errors, files, the writer -/

/-- The errors the program returns. -/
inductive Err where
  /-- An error built by `fmt.Errorf`; `msg` is the text of its `Error()`. -/
  | errorf (msg : String)
  /-- An error returned by `json.Unmarshal` (syntax or type error). -/
  | json
  /-- An error returned by `ioutil.ReadFile` or `ioutil.WriteFile`. -/
  | os (msg : String)
deriving DecidableEq, Repr

/-- What a path of the file system holds, as `ioutil.ReadFile` sees it. -/
inductive File where
  /-- No file: `ReadFile` fails with an error that is `os.ErrNotExist`. -/
  | absent
  /-- A file with this content: `ReadFile` returns it. -/
  | content (data : String)
  /-- `ReadFile` fails for another reason (permissions, I/O, a directory). -/
  | unreadable (msg : String)
deriving DecidableEq, Repr

/-- How a call of `ioutil.WriteFile` fails. `WriteFile` opens the file with
`O_WRONLY|O_CREATE|O_TRUNC`, writes the data and closes the file. -/
inductive WriteFailure where
  /-- The file cannot be opened or created (permissions, a directory that does
  not exist): nothing is touched. -/
  | atOpen (msg : String)
  /-- The file was opened, and so created or truncated, and the write or the
  close failed after `written` characters of the data had reached the file. -/
  | afterOpen (msg : String) (written : Nat)
deriving DecidableEq, Repr

/-- The text of the error of a failed write. -/
def WriteFailure.msg : WriteFailure → String
  | WriteFailure.atOpen msg => msg
  | WriteFailure.afterOpen msg _ => msg

/-- The file system as the program sees it. -/
structure World where
  /-- What each path holds. -/
  files : String → File
  /-- The failure of `WriteFile` at a path, when it fails. -/
  writeErr : String → Option WriteFailure
  /-- The calls of `WriteFile` issued so far: path and data, oldest first. -/
  writes : List (String × String)

/-- An `io.Writer` that records what is written to it: one entry per call of
`fmt.Fprint`, oldest first. -/
abbrev Writer := List String

/-- The call `ioutil.ReadFile(fileName)`. -/
def readFile (fileName : String) (w : World) : File := w.files fileName

/-- The call `ioutil.WriteFile(fileName, data, os.ModePerm)`: the call is
recorded; when it does not fail the file holds exactly `data` afterwards (it is
created if it did not exist) and can be read back. When the open fails the file
is left as it was; when the call fails after the open, the file holds the part
of `data` that was written, a cut copy (cuts are taken between characters). -/
def writeFile (fileName : String) (data : String) (w : World) : Option Err × World :=
  match w.writeErr fileName with
  | some (WriteFailure.atOpen msg) =>
    (some (Err.os msg), { w with writes := w.writes ++ [(fileName, data)] })
  | some (WriteFailure.afterOpen msg written) =>
    (some (Err.os msg), { w with
      files := fun p =>
        if p = fileName then File.content (String.mk (data.data.take written)) else w.files p
      writes := w.writes ++ [(fileName, data)] })
  | none =>
    (none, { w with
      files := fun p => if p = fileName then File.content data else w.files p
      writes := w.writes ++ [(fileName, data)] })

/-- The call `fmt.Fprint(writer, s)`. -/
def fprint (writer : Writer) (s : String) : Writer := writer ++ [s]

/-! ## The program -/

def operationFlag : String := "operation"
def itemFlag : String := "item"
def fileNameFlag : String := "fileName"
def idFlag : String := "id"

def addCommand : String := "add"
def listCommand : String := "list"
def findByIdCommand : String := "findById"
def removeCommand : String := "remove"

/-- The type `Arguments` (`map[string]string`): a lookup yields the value of a
key that is present. -/
abbrev Arguments := String → Option String

/-- What a call leaves behind: the returned error (`none` for `nil`), the writer
and the file system. -/
structure Result where
  err : Option Err
  out : Writer
  world : World

/-- The function `buildMissingFlagError`. -/
def buildMissingFlagError (flagName : String) : Err :=
  Err.errorf ("-" ++ flagName ++ " flag has to be specified")

/-- The function `getUsersFromFile`: a missing file and a file of length zero
give the empty slice, any other read failure and any decode failure are
returned. -/
def getUsersFromFile (fileName : String) (w : World) : Except Err (List User) :=
  match readFile fileName w with
  | File.unreadable msg => Except.error (Err.os msg)
  | File.absent => Except.ok []
  | File.content fileData =>
    if 0 < fileData.length then
      match Json.unmarshalUsers fileData.data with
      | none => Except.error Err.json
      | some allUsers => Except.ok allUsers
    else Except.ok []

/-- The function `putUsersToFile` (`json.Marshal` does not fail on `[]User`). -/
def putUsersToFile (users : List User) (fileName : String) (w : World) : Option Err × World :=
  writeFile fileName (String.mk (Json.encodeUsers users)) w

/-- The function `addNewUser`. -/
def addNewUser (item fileName : String) (writer : Writer) (w : World) : Result :=
  match Json.unmarshalUser item.data with
  | none => ⟨some Err.json, writer, w⟩
  | some user =>
    match getUsersFromFile fileName w with
    | Except.error e => ⟨some e, writer, w⟩
    | Except.ok allUsers =>
      if allUsers.any (fun v => v.ID == user.ID) then
        ⟨none, fprint writer ("Item with id " ++ user.ID ++ " already exists"), w⟩
      else
        let r := putUsersToFile (allUsers ++ [user]) fileName w
        ⟨r.1, writer, r.2⟩

/-- The function `removeUser`. -/
def removeUser (id fileName : String) (writer : Writer) (w : World) : Result :=
  match getUsersFromFile fileName w with
  | Except.error e => ⟨some e, writer, w⟩
  | Except.ok allUsers =>
    let filteredUsers := allUsers.filter (fun v => v.ID != id)
    if allUsers.length ≠ filteredUsers.length then
      let r := putUsersToFile filteredUsers fileName w
      ⟨r.1, writer, r.2⟩
    else
      ⟨none, fprint writer ("Item with id " ++ id ++ " not found"), w⟩

/-- The function `findUser`. -/
def findUser (id fileName : String) (writer : Writer) (w : World) : Result :=
  match getUsersFromFile fileName w with
  | Except.error e => ⟨some e, writer, w⟩
  | Except.ok allUsers =>
    match allUsers.find? (fun v => v.ID == id) with
    | some v => ⟨none, fprint writer (String.mk (Json.encodeUser v)), w⟩
    | none => ⟨none, writer, w⟩

/-- The function `listUsers`. -/
def listUsers (fileName : String) (writer : Writer) (w : World) : Result :=
  match getUsersFromFile fileName w with
  | Except.error e => ⟨some e, writer, w⟩
  | Except.ok users =>
    if 0 < users.length then
      ⟨none, fprint writer (String.mk (Json.encodeUsers users)), w⟩
    else ⟨none, writer, w⟩

/-- A flag of the arguments that is present and not empty. -/
def flagValue (args : Arguments) (flagName : String) : Option String :=
  match args flagName with
  | none => none
  | some v => if v = "" then none else some v

/-- The function `Perform`. -/
def Perform (args : Arguments) (writer : Writer) (w : World) : Result :=
  match flagValue args operationFlag with
  | none => ⟨some (buildMissingFlagError operationFlag), writer, w⟩
  | some operation =>
    match flagValue args fileNameFlag with
    | none => ⟨some (buildMissingFlagError fileNameFlag), writer, w⟩
    | some fileName =>
      if operation = listCommand then listUsers fileName writer w
      else if operation = addCommand then
        match flagValue args itemFlag with
        | none => ⟨some (buildMissingFlagError itemFlag), writer, w⟩
        | some item => addNewUser item fileName writer w
      else if operation = removeCommand then
        match flagValue args idFlag with
        | none => ⟨some (buildMissingFlagError idFlag), writer, w⟩
        | some id => removeUser id fileName writer w
      else if operation = findByIdCommand then
        match flagValue args idFlag with
        | none => ⟨some (buildMissingFlagError idFlag), writer, w⟩
        | some id => findUser id fileName writer w
      else ⟨some (Err.errorf ("Operation " ++ operation ++ " not allowed!")), writer, w⟩

/-- An error that comes from a library call (`encoding/json`, `io/ioutil`), not
from `fmt.Errorf`. -/
def Err.fromLibrary : Err → Prop
  | Err.errorf _ => False
  | Err.json => True
  | Err.os _ => True

/-! ## Concrete worlds and arguments used in the examples -/

/-- A file system with no files, where no read or write fails. -/
def emptyWorld : World := ⟨fun _ => File.absent, fun _ => none, []⟩

/-- A file system with one file `fileName` of content `content`. -/
def oneFile (fileName content : String) : World :=
  ⟨fun p => if p = fileName then File.content content else File.absent, fun _ => none, []⟩

/-- A file system with no files where every write fails with `msg` (as in a
directory that does not exist or cannot be written). -/
def readOnlyWorld (msg : String) : World :=
  ⟨fun _ => File.absent, fun _ => some (WriteFailure.atOpen msg), []⟩

/-- A file system with one file `fileName` of content `content` that cannot be
written: every write fails with `msg`. -/
def readOnlyFile (fileName content msg : String) : World :=
  ⟨fun p => if p = fileName then File.content content else File.absent,
    fun _ => some (WriteFailure.atOpen msg), []⟩

/-- A sample record. -/
def alice : User := ⟨"1", "a@b.com", 30⟩

/-- The payload of `add` for the sample record. -/
def aliceItem : String := "\x7b\"id\":\"1\",\"email\":\"a@b.com\",\"age\":30\x7d"

/-- A second sample record. -/
def bob : User := ⟨"2", "b@c.org", 41⟩

/-- A store file that holds the second sample record. -/
def bobStore : String := "[\x7b\"id\":\"2\",\"email\":\"b@c.org\",\"age\":41\x7d]"

/-- A store file in which two records share the id `1` (an edit made outside
the program; `add` never produces it). -/
def twinStore : String :=
  "[\x7b\"id\":\"1\",\"email\":\"a@b.com\",\"age\":30\x7d,\x7b\"id\":\"1\",\"email\":\"x@y.z\",\"age\":7\x7d]"

/-- A file system in which `fileName` cannot be read: `ReadFile` fails with `msg`. -/
def unreadableFile (fileName msg : String) : World :=
  ⟨fun p => if p = fileName then File.unreadable msg else File.absent, fun _ => none, []⟩

/-- A payload that is valid JSON but no record: its `id` is a number. -/
def badItem : String := "\x7b\"id\":1\x7d"

/-- A store file cut off in the middle of a record. -/
def cutStore : String := "[\x7b\"id\":\"1\",\"email\":\"a@b"

/-- A payload without the key `id`. -/
def noIdItem : String := "\x7b\"email\":\"a@b.com\",\"age\":1\x7d"

/-- An arguments map with no key at all. -/
def noArgs : Arguments := fun _ => none

/-- An arguments map that holds the operation only. -/
def onlyOperation (operation : String) : Arguments := fun k =>
  if k = operationFlag then some operation else none

/-- The arguments as `parseArgs` builds them: all four flags present. -/
def mkArgs (operation item fileName id : String) : Arguments := fun k =>
  if k = operationFlag then some operation
  else if k = itemFlag then some item
  else if k = fileNameFlag then some fileName
  else if k = idFlag then some id
  else none

/-! ## The scenario of the specification, call by call -/

/-- First call: `add` of the sample record on an empty file. -/
def scenarioAdd : Result :=
  Perform (mkArgs "add" aliceItem "users.json" "") [] (oneFile "users.json" "")

/-- Second call: `findById` of id `1`. -/
def scenarioFind : Result :=
  Perform (mkArgs "findById" "" "users.json" "1") [] scenarioAdd.world

/-- Third call: `remove` of id `1`. -/
def scenarioRemove : Result :=
  Perform (mkArgs "remove" "" "users.json" "1") [] scenarioFind.world

/-- Fourth call: `findById` of id `1` again. -/
def scenarioFindAgain : Result :=
  Perform (mkArgs "findById" "" "users.json" "1") [] scenarioRemove.world

/-! ## Notions for the invariant of the store -/

/-- No two records of the sequence share an id. -/
def uniqueIds (s : List User) : Prop := (s.map User.ID).Nodup

instance (s : List User) : Decidable (uniqueIds s) := by
  unfold uniqueIds; exact inferInstance

/-- The store at `fileName` decodes and no two of its records share an id. -/
def uniqueStore (fileName : String) (w : World) : Prop :=
  ∃ s, getUsersFromFile fileName w = Except.ok s ∧ uniqueIds s

/-- Whatever the store at `fileName` decodes to has no two records with the
same id (a file that does not decode holds no records). -/
def distinctIds (fileName : String) (w : World) : Prop :=
  ∀ s, getUsersFromFile fileName w = Except.ok s → uniqueIds s

/-- No write to `fileName` fails after the file was opened, so no write leaves
a cut file there. -/
def noCut (fileName : String) (w : World) : Prop :=
  ∀ msg written, w.writeErr fileName ≠ some (WriteFailure.afterOpen msg written)

/-- The sequences that one call can hand to `putUsersToFile` for `target` on
the file system `w`: the loaded sequence with one record of a fresh id
appended, or with the records of one id removed. -/
def Persistable (target : String) (w : World) (users : List User) : Prop :=
  ∃ t, getUsersFromFile target w = Except.ok t ∧
    ((∃ r : User, r.valid ∧ (∀ v ∈ t, v.ID ≠ r.ID) ∧ users = t ++ [r]) ∨
      (∃ id : String, users = t.filter (fun v => v.ID != id)))

/-- A file system with no files where every write fails after the open, with
ten characters written (as on a full disk). -/
def fullDisk : World :=
  ⟨fun _ => File.absent, fun _ => some (WriteFailure.afterOpen "no space left on device" 10), []⟩

/-- A sequence of calls of `Perform`, each with its arguments and its writer, run
one after the other; the file system the last one leaves. -/
def performAll : List (Arguments × Writer) → World → World
  | [], w => w
  | call :: calls, w => performAll calls (Perform call.1 call.2 w).world

end Store

/-! ## The JSON codec: decoding what the encoder writes -/

namespace Store

namespace Json

theorem hexVal_hexDigit (d : Nat) (h : d < 16) : hexVal (hexDigit d) = some d := by
  interval_cases d <;> decide

theorem hex4_uEscape (n : Nat) (h : n < 65536) (rest : List Char) :
    hex4 (hexDigit (n / 4096 % 16) :: hexDigit (n / 256 % 16) :: hexDigit (n / 16 % 16)
      :: hexDigit (n % 16) :: rest) = some (n, rest) := by
  have h1 := hexVal_hexDigit (n / 4096 % 16) (Nat.mod_lt _ (by decide))
  have h2 := hexVal_hexDigit (n / 256 % 16) (Nat.mod_lt _ (by decide))
  have h3 := hexVal_hexDigit (n / 16 % 16) (Nat.mod_lt _ (by decide))
  have h4 := hexVal_hexDigit (n % 16) (Nat.mod_lt _ (by decide))
  simp only [hex4, h1, h2, h3, h4]
  congr 2
  omega

theorem decodeU_plain (n : Nat) (h : n < 55296) (rest : List Char) :
    decodeU n rest = (Char.ofNat n, rest) := by
  unfold decodeU
  rw [if_neg (by omega)]

theorem parseChars_uEscape (fuel : Nat) (c : Char) (h : c.toNat < 55296) (rest : List Char) :
    parseChars (fuel + 1) (uEscape c.toNat ++ rest)
      = pushChar c (parseChars fuel rest) := by
  have hq : ('\\' : Char) ≠ '"' := by decide
  show parseChars (fuel + 1) ('\\' :: 'u' :: hexDigit (c.toNat / 4096 % 16)
    :: hexDigit (c.toNat / 256 % 16) :: hexDigit (c.toNat / 16 % 16)
    :: hexDigit (c.toNat % 16) :: rest) = _
  simp only [parseChars, if_neg hq, if_true,
    hex4_uEscape c.toNat (by omega) rest, decodeU_plain c.toNat h rest, Char.ofNat_toNat]

theorem parseChars_escapeChar (fuel : Nat) (c : Char) (rest : List Char) :
    parseChars (fuel + 1) (escapeChar c ++ rest) = pushChar c (parseChars fuel rest) := by
  unfold escapeChar
  split_ifs with h1 h2 h3 h4 h5 h6
  · subst h1; rfl
  · subst h2; rfl
  · subst h3; rfl
  · subst h4; rfl
  · subst h5; rfl
  · apply parseChars_uEscape
    rcases h6 with h | h | h | h | h | h
    · omega
    · subst h; decide
    · subst h; decide
    · subst h; decide
    · omega
    · omega
  · have h7 : ¬ c.toNat < 32 := fun h => h6 (Or.inl h)
    show parseChars (fuel + 1) (c :: rest) = _
    simp only [parseChars, if_neg h1, if_neg h2, if_neg h7]

theorem parseChars_escapeChars (s : List Char) (rest : List Char) :
    ∀ fuel, s.length < fuel → parseChars fuel (escapeChars s ++ '"' :: rest) = some (s, rest) := by
  induction s with
  | nil =>
    intro fuel h
    cases fuel with
    | zero => omega
    | succ f => simp [escapeChars, parseChars]
  | cons c cs ih =>
    intro fuel h
    cases fuel with
    | zero => omega
    | succ f =>
      simp only [escapeChars, List.append_assoc]
      rw [parseChars_escapeChar, ih f (by simpa using h)]
      rfl

theorem length_escapeChar (c : Char) : 1 ≤ (escapeChar c).length := by
  unfold escapeChar
  split_ifs <;> simp [uEscape]

theorem length_escapeChars (s : List Char) : s.length ≤ (escapeChars s).length := by
  induction s with
  | nil => simp
  | cons c cs ih =>
    have := length_escapeChar c
    simp only [escapeChars, List.length_cons, List.length_append]
    omega

theorem parseString_escapeChars (s rest : List Char) :
    parseString (escapeChars s ++ '"' :: rest) = some (s, rest) := by
  unfold parseString
  apply parseChars_escapeChars
  have := length_escapeChars s
  simp only [List.length_append, List.length_cons]
  omega

/-! ### Numbers -/

theorem natDigits_acc (fuel : Nat) : ∀ n acc, natDigits fuel n acc = natDigits fuel n [] ++ acc := by
  induction fuel with
  | zero => intro n acc; simp [natDigits]
  | succ f ih =>
    intro n acc
    simp only [natDigits]
    split_ifs with h
    · simp
    · rw [ih (n / 10) (Char.ofNat (48 + n % 10) :: acc), ih (n / 10) [Char.ofNat (48 + n % 10)]]
      simp

theorem natDigits_fuel (f1 : Nat) :
    ∀ f2 n acc, n < f1 → n < f2 → natDigits f1 n acc = natDigits f2 n acc := by
  induction f1 with
  | zero => intro f2 n acc h; omega
  | succ f ih =>
    intro f2 n acc h1 h2
    cases f2 with
    | zero => omega
    | succ g =>
      simp only [natDigits]
      split_ifs with h
      · rfl
      · exact ih g (n / 10) _ (by omega) (by omega)

theorem natDigits_small (n : Nat) (h : n < 10) :
    natDigits (n + 1) n [] = [Char.ofNat (48 + n)] := by
  simp [natDigits, h]

theorem natDigits_step (n : Nat) (h : 10 ≤ n) :
    natDigits (n + 1) n [] = natDigits (n / 10 + 1) (n / 10) [] ++ [Char.ofNat (48 + n % 10)] := by
  have h1 : ¬ n < 10 := by omega
  have h2 : natDigits (n + 1) n [] = natDigits n (n / 10) [Char.ofNat (48 + n % 10)] := by
    rw [natDigits, if_neg h1]
  rw [h2, natDigits_acc, natDigits_fuel n (n / 10 + 1) (n / 10) [] (by omega) (by omega)]

theorem toNat_digit (d : Nat) (h : d < 10) : (Char.ofNat (48 + d)).toNat = 48 + d := by
  interval_cases d <;> decide

theorem isDigit_digit (d : Nat) (h : d < 10) : isDigit (Char.ofNat (48 + d)) = true := by
  have := toNat_digit d h
  simp only [isDigit, this, decide_eq_true_eq]
  omega

theorem digitsVal_append (xs : List Char) :
    ∀ acc ys, digitsVal acc (xs ++ ys) = digitsVal (digitsVal acc xs) ys := by
  intro acc ys
  simp only [digitsVal, List.foldl_append]

theorem natDigits_all (n : Nat) : (natDigits (n + 1) n []).all isDigit = true := by
  induction n using Nat.strong_induction_on with
  | _ n ih =>
    by_cases h : n < 10
    · rw [natDigits_small n h]
      simp only [List.all_cons, List.all_nil, isDigit_digit n h, Bool.and_self]
    · rw [natDigits_step n (by omega), List.all_append, ih (n / 10) (by omega)]
      simp only [List.all_cons, List.all_nil, isDigit_digit (n % 10) (Nat.mod_lt _ (by decide)),
        Bool.and_self]

theorem natDigits_val (n : Nat) : digitsVal 0 (natDigits (n + 1) n []) = n := by
  induction n using Nat.strong_induction_on with
  | _ n ih =>
    by_cases h : n < 10
    · rw [natDigits_small n h]
      simp only [digitsVal, List.foldl_cons, List.foldl_nil, toNat_digit n h]
      omega
    · rw [natDigits_step n (by omega), digitsVal_append, ih (n / 10) (by omega)]
      simp only [digitsVal, List.foldl_cons, List.foldl_nil,
        toNat_digit (n % 10) (Nat.mod_lt _ (by decide))]
      omega

theorem natDigits_head (n : Nat) :
    ∃ c cs, natDigits (n + 1) n [] = c :: cs ∧ isDigit c = true ∧ (c = '0' → n = 0) := by
  induction n using Nat.strong_induction_on with
  | _ n ih =>
    by_cases h : n < 10
    · refine ⟨Char.ofNat (48 + n), [], natDigits_small n h, isDigit_digit n h, ?_⟩
      intro h0
      have := toNat_digit n h
      rw [h0] at this
      have h48 : ('0' : Char).toNat = 48 := by decide
      omega
    · obtain ⟨c, cs, hcs, hd, hz⟩ := ih (n / 10) (by omega)
      refine ⟨c, cs ++ [Char.ofNat (48 + n % 10)], ?_, hd, ?_⟩
      · rw [natDigits_step n (by omega), hcs]; rfl
      · intro h0
        have := hz h0
        omega

theorem natDigits_zero : natDigits (0 + 1) 0 [] = ['0'] := by decide

theorem spanDigits_append (ds : List Char) (c : Char) (rest : List Char)
    (hds : ds.all isDigit = true) (hc : isDigit c = false) :
    spanDigits (ds ++ c :: rest) = (ds, c :: rest) := by
  induction ds with
  | nil => simp [spanDigits, hc]
  | cons d ds ih =>
    simp only [List.all_cons, Bool.and_eq_true] at hds
    show spanDigits (d :: (ds ++ c :: rest)) = _
    rw [spanDigits, if_pos hds.1, ih hds.2]

theorem scanUnsigned_natDigits (n : Nat) (c : Char) (rest : List Char) (hc : endsNumber c) :
    scanUnsigned (natDigits (n + 1) n [] ++ c :: rest)
      = some (natDigits (n + 1) n [], c :: rest) := by
  obtain ⟨hc1, hc2, hc3, hc4⟩ := hc
  have hint : scanIntPart (natDigits (n + 1) n [] ++ c :: rest)
      = some (natDigits (n + 1) n [], c :: rest) := by
    obtain ⟨d, ds, hds, hd, hz⟩ := natDigits_head n
    by_cases h0 : d = '0'
    · have hn := hz h0
      subst hn
      rw [natDigits_zero]
      rfl
    · have hall := natDigits_all n
      rw [hds] at hall ⊢
      simp only [List.all_cons, Bool.and_eq_true] at hall
      simp only [List.cons_append, scanIntPart, if_neg h0, hd, if_true,
        spanDigits_append ds c rest hall.2 hc1]
  have hfrac : scanFrac (c :: rest) = some ([], c :: rest) := by
    simp only [scanFrac, if_neg hc2]
  have hexp : scanExp (c :: rest) = some ([], c :: rest) := by
    have : ¬ (c = 'e' ∨ c = 'E') := by tauto
    simp only [scanExp, if_neg this]
  simp only [scanUnsigned, hint, hfrac, hexp, List.append_nil]

theorem formatInt_head (k : Int) :
    ∃ c cs, formatInt k = c :: cs ∧ (c = '-' ∨ isDigit c = true) := by
  unfold formatInt
  split_ifs with h
  · exact ⟨'-', _, rfl, Or.inl rfl⟩
  · obtain ⟨d, ds, hds, hd, _⟩ := natDigits_head k.natAbs
    exact ⟨d, ds, hds, Or.inr hd⟩

theorem scanNumber_formatInt (k : Int) (c : Char) (rest : List Char) (hc : endsNumber c) :
    scanNumber (formatInt k ++ c :: rest) = some (formatInt k, c :: rest) := by
  unfold formatInt
  split_ifs with h
  · simp only [List.cons_append, scanNumber, if_true,
      scanUnsigned_natDigits k.natAbs c rest hc]
  · obtain ⟨d, ds, hds, hd, _⟩ := natDigits_head k.natAbs
    have hd1 : d ≠ '-' := by
      intro h1
      rw [h1] at hd
      exact absurd hd (by decide)
    have key := scanUnsigned_natDigits k.natAbs c rest hc
    rw [hds] at key ⊢
    simp only [List.cons_append, scanNumber, if_neg hd1]
    exact key

theorem parseInt64_formatInt (k : Int) (hk : inInt64 k) : parseInt64 (formatInt k) = some k := by
  unfold formatInt
  have hall := natDigits_all k.natAbs
  have hval := natDigits_val k.natAbs
  obtain ⟨d, ds, hds, hd, _⟩ := natDigits_head k.natAbs
  split_ifs with h
  · have hne : natDigits (k.natAbs + 1) k.natAbs [] ≠ [] := by rw [hds]; simp
    have hv : -((digitsVal 0 (natDigits (k.natAbs + 1) k.natAbs []) : Nat) : Int) = k := by
      rw [hval]; omega
    simp only [parseInt64, if_true, hv]
    rw [if_pos ⟨hne, hall, hk⟩]
  · have hd1 : d ≠ '-' := by
      intro h1
      rw [h1] at hd
      exact absurd hd (by decide)
    have hv : ((digitsVal 0 (natDigits (k.natAbs + 1) k.natAbs []) : Nat) : Int) = k := by
      rw [hval]; omega
    rw [hds] at hall hv ⊢
    simp only [parseInt64, if_neg hd1, hv]
    rw [if_pos ⟨hall, hk⟩]

/-! ### Values, members, elements -/

theorem skipSpace_cons (c : Char) (cs : List Char) (h : isSpace c = false) :
    skipSpace (c :: cs) = c :: cs := by
  rw [skipSpace, h]
  rfl

theorem parseValue_string (f depth : Nat) (s rest : List Char) :
    parseValue (f + 1) depth ('"' :: (escapeChars s ++ '"' :: rest)) = some (Value.str s, rest) := by
  have h1 : ('"' : Char) ≠ '{' := by decide
  have h2 : ('"' : Char) ≠ '[' := by decide
  rw [parseValue, if_neg h1, if_neg h2, if_pos rfl, parseString_escapeChars]

theorem parseValue_number (f depth : Nat) (k : Int) (c : Char) (rest : List Char)
    (hc : endsNumber c) :
    parseValue (f + 1) depth (formatInt k ++ c :: rest)
      = some (Value.num (formatInt k), c :: rest) := by
  have hs := scanNumber_formatInt k c rest hc
  obtain ⟨d, ds, hds, hd⟩ := formatInt_head k
  have hne : d ≠ '{' ∧ d ≠ '[' ∧ d ≠ '"' ∧ d ≠ 't' ∧ d ≠ 'f' ∧ d ≠ 'n' := by
    rcases hd with hd | hd
    · subst hd; decide
    · refine ⟨?_, ?_, ?_, ?_, ?_, ?_⟩ <;>
      · intro h
        rw [h] at hd
        exact absurd hd (by decide)
  rw [hds] at hs ⊢
  rw [List.cons_append] at hs ⊢
  rw [parseValue, if_neg hne.1, if_neg hne.2.1, if_neg hne.2.2.1, if_neg hne.2.2.2.1,
    if_neg hne.2.2.2.2.1, if_neg hne.2.2.2.2.2, hs]

theorem formatInt_skipSpace (k : Int) (rest : List Char) :
    skipSpace (formatInt k ++ rest) = formatInt k ++ rest := by
  obtain ⟨d, ds, hds, hd⟩ := formatInt_head k
  rw [hds, List.cons_append]
  apply skipSpace_cons
  rcases hd with hd | hd
  · subst hd; decide
  · cases hsp : isSpace d with
    | false => rfl
    | true =>
      simp only [isSpace, Bool.or_eq_true, decide_eq_true_eq] at hsp
      rcases hsp with ((h | h) | h) | h <;>
      · rw [h] at hd
        exact absurd hd (by decide)

/-- A member that is followed by another one. -/
theorem parseMembers_more (f depth : Nat) (key vt more : List Char) (v : Value)
    (kvs : List (List Char × Value)) (rest : List Char)
    (hk : escapeChars key = key) (hsk : skipSpace vt = vt)
    (hv : parseValue f depth vt = some (v, ',' :: '"' :: more))
    (hm : parseMembers f depth ('"' :: more) = some (kvs, rest)) :
    parseMembers (f + 1) depth ('"' :: (key ++ '"' :: ':' :: vt)) = some ((key, v) :: kvs, rest) := by
  have hs := parseString_escapeChars key (':' :: vt)
  rw [hk] at hs
  have h1 : skipSpace (':' :: vt) = ':' :: vt := skipSpace_cons _ _ (by decide)
  have h2 : skipSpace (',' :: '"' :: more) = ',' :: '"' :: more := skipSpace_cons _ _ (by decide)
  have h3 : skipSpace ('"' :: more) = '"' :: more := skipSpace_cons _ _ (by decide)
  have h4 : (',' : Char) ≠ '}' := by decide
  rw [parseMembers, if_pos rfl, hs]
  simp only [h1, if_true, hsk, hv, h2, if_neg h4, h3, hm]

/-- The last member of an object. -/
theorem parseMembers_last (f depth : Nat) (key vt : List Char) (v : Value) (rest : List Char)
    (hk : escapeChars key = key) (hsk : skipSpace vt = vt)
    (hv : parseValue f depth vt = some (v, '}' :: rest)) :
    parseMembers (f + 1) depth ('"' :: (key ++ '"' :: ':' :: vt)) = some ([(key, v)], rest) := by
  have hs := parseString_escapeChars key (':' :: vt)
  rw [hk] at hs
  have h1 : skipSpace (':' :: vt) = ':' :: vt := skipSpace_cons _ _ (by decide)
  have h2 : skipSpace ('}' :: rest) = '}' :: rest := skipSpace_cons _ _ (by decide)
  rw [parseMembers, if_pos rfl, hs]
  simp only [h1, if_true, hsk, hv, h2]

theorem encodeUser_append (u : User) (rest : List Char) :
    encodeUser u ++ rest
      = '{' :: '"' :: (['i', 'd'] ++ '"' :: ':' :: '"' :: (escapeChars u.ID.data ++ '"' :: ',' :: '"'
        :: (['e', 'm', 'a', 'i', 'l'] ++ '"' :: ':' :: '"' :: (escapeChars u.Email.data ++ '"' :: ','
        :: '"' :: (['a', 'g', 'e'] ++ '"' :: ':' :: (formatInt u.Age ++ '}' :: rest)))))) := by
  simp [encodeUser, encodeString]

theorem parseValue_encodeUser (f depth : Nat) (hd : depth < maxNestingDepth) (u : User)
    (rest : List Char) :
    parseValue (f + 5) depth (encodeUser u ++ rest) = some (userValue u, rest) := by
  have hbrace : endsNumber '}' := by
    refine ⟨by decide, by decide, by decide, by decide⟩
  have hq : ∀ xs : List Char, skipSpace ('"' :: xs) = '"' :: xs :=
    fun xs => skipSpace_cons _ _ (by decide)
  have hage := parseMembers_last (f + 1) (depth + 1) ['a', 'g', 'e'] (formatInt u.Age ++ '}' :: rest)
    (Value.num (formatInt u.Age)) rest (by decide) (formatInt_skipSpace _ _)
    (parseValue_number f (depth + 1) u.Age '}' rest hbrace)
  have hemail := parseMembers_more (f + 2) (depth + 1) ['e', 'm', 'a', 'i', 'l'] _ _
    (Value.str u.Email.data) _ rest (by decide) (hq _)
    (parseValue_string (f + 1) (depth + 1) u.Email.data _) hage
  have hid := parseMembers_more (f + 3) (depth + 1) ['i', 'd'] _ _
    (Value.str u.ID.data) _ rest (by decide) (hq _)
    (parseValue_string (f + 2) (depth + 1) u.ID.data _) hemail
  have h1 : ¬ maxNestingDepth ≤ depth := by omega
  have h2 : ('"' : Char) ≠ '}' := by decide
  rw [encodeUser_append, parseValue, if_pos rfl, if_neg h1]
  simp only [hq, if_neg h2, hid]
  rfl

theorem encodeUser_head (u : User) : ∃ cs, encodeUser u = '{' :: cs := ⟨_, rfl⟩

theorem encodeElems_head (u : User) (us : List User) : ∃ cs, encodeElems (u :: us) = '{' :: cs := by
  cases us with
  | nil => exact encodeUser_head u
  | cons v vs => exact ⟨_, rfl⟩

theorem parseElems_encodeElems (depth : Nat) (hd : depth < maxNestingDepth) (u : User)
    (us : List User) (rest : List Char) :
    ∀ f, us.length ≤ f →
      parseElems (f + 6) depth (encodeElems (u :: us) ++ ']' :: rest)
        = some ((u :: us).map userValue, rest) := by
  induction us generalizing u with
  | nil =>
    intro f _
    have h1 : skipSpace (']' :: rest) = ']' :: rest := skipSpace_cons _ _ (by decide)
    rw [encodeElems, parseElems, parseValue_encodeUser f depth hd]
    simp only [h1, if_true, List.map]
  | cons v vs ih =>
    intro f hf
    cases f with
    | zero => simp at hf
    | succ g =>
      have hrec := ih v g (by simpa using hf)
      obtain ⟨cs, hcs⟩ := encodeElems_head v vs
      have h1 : skipSpace (',' :: (encodeElems (v :: vs) ++ ']' :: rest))
          = ',' :: (encodeElems (v :: vs) ++ ']' :: rest) := skipSpace_cons _ _ (by decide)
      have h2 : skipSpace (encodeElems (v :: vs) ++ ']' :: rest)
          = encodeElems (v :: vs) ++ ']' :: rest := by
        rw [hcs, List.cons_append]
        exact skipSpace_cons _ _ (by decide)
      have h3 : (',' : Char) ≠ ']' := by decide
      have h4 : encodeElems (u :: v :: vs) ++ ']' :: rest
          = encodeUser u ++ ',' :: (encodeElems (v :: vs) ++ ']' :: rest) := by
        simp [encodeElems]
      rw [h4, parseElems, parseValue_encodeUser (g + 1) depth hd]
      simp only [h1, if_neg h3, if_true, h2, hrec, List.map]

theorem length_encodeElems (us : List User) : us.length ≤ (encodeElems us).length := by
  induction us with
  | nil => simp
  | cons u us ih =>
    cases us with
    | nil => simp [encodeElems, encodeUser]
    | cons v vs =>
      simp only [encodeElems, List.length_append, List.length_cons] at ih ⊢
      omega

theorem parseJson_encodeUsers (us : List User) :
    parseJson (encodeUsers us) = some (Value.arr (us.map userValue)) := by
  have h0 : skipSpace (encodeUsers us) = encodeUsers us := skipSpace_cons _ _ (by decide)
  have hnil : skipSpace ([] : List Char) = [] := rfl
  have hb : ('[' : Char) ≠ '{' := by decide
  have hdepth : ¬ maxNestingDepth ≤ 0 := by decide
  unfold parseJson
  rw [h0]
  cases us with
  | nil =>
    have : parseValue (2 * (encodeUsers []).length + 2) 0 (encodeUsers [])
        = some (Value.arr [], []) := rfl
    rw [this]
    rfl
  | cons u us =>
    have hlen := length_encodeElems (u :: us)
    obtain ⟨f, hf⟩ : ∃ f, 2 * (encodeUsers (u :: us)).length + 2 = (f + 6) + 1 ∧ us.length ≤ f := by
      refine ⟨2 * (encodeUsers (u :: us)).length - 5, ?_, ?_⟩
      · simp only [encodeUsers, List.length_cons, List.length_append] at hlen ⊢
        omega
      · simp only [encodeUsers, List.length_cons, List.length_append] at hlen ⊢
        omega
    obtain ⟨cs, hcs⟩ := encodeElems_head u us
    have h2 : skipSpace (encodeElems (u :: us) ++ [']']) = encodeElems (u :: us) ++ [']'] := by
      rw [hcs, List.cons_append]
      exact skipSpace_cons _ _ (by decide)
    have hp := parseElems_encodeElems 1 (by decide) u us [] f hf.2
    have hne : ∃ d ds, encodeElems (u :: us) ++ [']'] = d :: ds ∧ d ≠ ']' := by
      rw [hcs, List.cons_append]
      exact ⟨_, _, rfl, by decide⟩
    obtain ⟨d, ds, hds, hdne⟩ := hne
    rw [hf.1, encodeUsers, parseValue, if_neg hb, if_pos rfl, if_neg hdepth, h2]
    rw [hds] at hp ⊢
    simp only [if_neg hdne, hp, hnil, if_true]

theorem parseJson_encodeUser (u : User) : parseJson (encodeUser u) = some (userValue u) := by
  have h0 : skipSpace (encodeUser u) = encodeUser u := skipSpace_cons _ _ (by decide)
  have hnil : skipSpace ([] : List Char) = [] := rfl
  obtain ⟨f, hf⟩ : ∃ f, 2 * (encodeUser u).length + 2 = f + 5 := by
    refine ⟨2 * (encodeUser u).length - 3, ?_⟩
    simp only [encodeUser, List.length_cons, List.length_append]
    omega
  have hp := parseValue_encodeUser f 0 (by decide) u []
  rw [List.append_nil] at hp
  unfold parseJson
  rw [h0, hf, hp]
  simp only [hnil, if_true]

/-! ### Storing into `User` -/

theorem storeUser_userValue (u : User) (hu : u.valid) :
    storeUser User.zero (userValue u) = some u := by
  have h1 : fieldOf ['i', 'd'] = some Field.id := by decide
  have h2 : fieldOf ['e', 'm', 'a', 'i', 'l'] = some Field.email := by decide
  have h3 : fieldOf ['a', 'g', 'e'] = some Field.age := by decide
  simp only [storeUser, userValue, setMembers, h1, h2, h3, setField,
    parseInt64_formatInt u.Age hu]

theorem storeElems_userValue (us : List User) (hus : ∀ u ∈ us, u.valid) :
    storeElems (us.map userValue) = some us := by
  induction us with
  | nil => rfl
  | cons u us ih =>
    have hu := hus u (List.mem_cons_self _ _)
    have hrest := ih (fun v hv => hus v (List.mem_cons_of_mem _ hv))
    simp only [List.map, storeElems, storeUser_userValue u hu, hrest]

/-- Decoding the encoding of a record gives the record back. -/
theorem unmarshalUser_encodeUser (u : User) (hu : u.valid) :
    unmarshalUser (encodeUser u) = some u := by
  simp only [unmarshalUser, parseJson_encodeUser, storeUser_userValue u hu]

/-- Decoding the encoding of a sequence of records gives the sequence back. -/
theorem unmarshalUsers_encodeUsers (us : List User) (hus : ∀ u ∈ us, u.valid) :
    unmarshalUsers (encodeUsers us) = some us := by
  simp only [unmarshalUsers, parseJson_encodeUsers, storeUsers, storeElems_userValue us hus]

/-! ### Decoded records are valid -/

theorem parseInt64_inInt64 (lit : List Char) (n : Int) (h : parseInt64 lit = some n) :
    inInt64 n := by
  unfold parseInt64 at h
  split at h
  · simp at h
  · split_ifs at h with h1 h2 h3
    · simp only [Option.some.injEq] at h
      rw [← h]; exact h2.2.2
    · simp only [Option.some.injEq] at h
      rw [← h]; exact h3.2

theorem setField_valid (u : User) (f : Field) (v : Value) (u1 : User) (hu : u.valid)
    (h : setField u f v = some u1) : u1.valid := by
  unfold setField at h
  split at h
  · simp only [Option.some.injEq] at h; rw [← h]; exact hu
  · simp only [Option.some.injEq] at h; rw [← h]; exact hu
  · simp only [Option.some.injEq] at h; rw [← h]; exact hu
  · split at h
    · simp at h
    · next n hn =>
      simp only [Option.some.injEq] at h
      rw [← h]
      exact parseInt64_inInt64 _ _ hn
  · simp at h

theorem setMembers_valid (kvs : List (List Char × Value)) :
    ∀ u u1 : User, u.valid → setMembers u kvs = some u1 → u1.valid := by
  induction kvs with
  | nil =>
    intro u u1 hu h
    simp only [setMembers, Option.some.injEq] at h
    rw [← h]; exact hu
  | cons kv kvs ih =>
    intro u u1 hu h
    obtain ⟨key, v⟩ := kv
    simp only [setMembers] at h
    split at h
    · exact ih u u1 hu h
    · next f hf =>
      split at h
      · simp at h
      · next u2 h2 => exact ih u2 u1 (setField_valid u f v u2 hu h2) h

theorem zero_valid : User.zero.valid := by decide

theorem storeUser_valid (v : Value) (u : User) (h : storeUser User.zero v = some u) :
    u.valid := by
  unfold storeUser at h
  split at h
  · simp only [Option.some.injEq] at h; rw [← h]; exact zero_valid
  · exact setMembers_valid _ _ _ zero_valid h
  · simp at h

theorem storeElems_valid (vs : List Value) :
    ∀ us, storeElems vs = some us → ∀ u ∈ us, u.valid := by
  induction vs with
  | nil =>
    intro us h u hu
    simp only [storeElems, Option.some.injEq] at h
    rw [← h] at hu
    simp at hu
  | cons v vs ih =>
    intro us h u hu
    simp only [storeElems] at h
    split at h
    · simp at h
    · next u1 h1 =>
      split at h
      · simp at h
      · next us1 h2 =>
        simp only [Option.some.injEq] at h
        rw [← h] at hu
        rcases List.mem_cons.mp hu with hu | hu
        · rw [hu]; exact storeUser_valid v u1 h1
        · exact ih us1 h2 u hu

/-- Every record that `Unmarshal` produces has an `Age` in `int` range. -/
theorem unmarshalUser_valid (data : List Char) (u : User) (h : unmarshalUser data = some u) :
    u.valid := by
  unfold unmarshalUser at h
  split at h
  · simp at h
  · exact storeUser_valid _ _ h

theorem unmarshalUsers_valid (data : List Char) (us : List User)
    (h : unmarshalUsers data = some us) : ∀ u ∈ us, u.valid := by
  unfold unmarshalUsers at h
  split at h
  · simp at h
  · next v _ =>
    unfold storeUsers at h
    split at h
    · simp only [Option.some.injEq] at h
      rw [← h]; simp
    · exact storeElems_valid _ _ h
    · simp at h

end Json

/-! ## The operations: loading, persisting, and what each branch does -/

theorem getUsersFromFile_valid (fileName : String) (w : World) (s : List User)
    (h : getUsersFromFile fileName w = Except.ok s) : ∀ u ∈ s, u.valid := by
  unfold getUsersFromFile at h
  split at h
  · simp at h
  · simp only [Except.ok.injEq] at h
    rw [← h]; simp
  · split_ifs at h
    · split at h
      · simp at h
      · next us hus =>
        simp only [Except.ok.injEq] at h
        rw [← h]
        exact Json.unmarshalUsers_valid _ _ hus
    · simp only [Except.ok.injEq] at h
      rw [← h]; simp

theorem putUsersToFile_err (users : List User) (fileName : String) (w : World) :
    (putUsersToFile users fileName w).1 = none ↔ w.writeErr fileName = none := by
  unfold putUsersToFile writeFile
  cases h : w.writeErr fileName with
  | none => simp
  | some fl => cases fl <;> simp

theorem putUsersToFile_files (users : List User) (fileName : String) (w : World)
    (h : (putUsersToFile users fileName w).1 = none) :
    (putUsersToFile users fileName w).2.files fileName
      = File.content (String.mk (Json.encodeUsers users)) := by
  have hw := (putUsersToFile_err users fileName w).mp h
  unfold putUsersToFile writeFile
  simp [hw]

/-- What the program persists it loads back. -/
theorem getUsersFromFile_putUsersToFile (users : List User) (fileName : String) (w : World)
    (hus : ∀ u ∈ users, u.valid) (h : (putUsersToFile users fileName w).1 = none) :
    getUsersFromFile fileName (putUsersToFile users fileName w).2 = Except.ok users := by
  have hf := putUsersToFile_files users fileName w h
  have hlen : 0 < (String.mk (Json.encodeUsers users)).length := by
    show 0 < (Json.encodeUsers users).length
    simp [Json.encodeUsers]
  unfold getUsersFromFile readFile
  rw [hf]
  simp only [hlen, if_true, Json.unmarshalUsers_encodeUsers users hus]

theorem any_eq_false_of_fresh (s : List User) (id : String) (h : ∀ v ∈ s, v.ID ≠ id) :
    s.any (fun v => v.ID == id) = false := by
  rw [List.any_eq_false]
  intro v hv
  simpa using h v hv

theorem any_eq_true_of_mem (s : List User) (id : String) (h : ∃ v ∈ s, v.ID = id) :
    s.any (fun v => v.ID == id) = true := by
  rw [List.any_eq_true]
  obtain ⟨v, hv, hid⟩ := h
  exact ⟨v, hv, by simpa using hid⟩

/-- The branch of `addNewUser` for an id that the store does not hold. -/
theorem addNewUser_fresh (w : World) (fileName item : String) (writer : Writer)
    (s : List User) (r : User)
    (hstore : getUsersFromFile fileName w = Except.ok s)
    (hitem : Json.unmarshalUser item.data = some r)
    (hnew : ∀ v ∈ s, v.ID ≠ r.ID) :
    addNewUser item fileName writer w
      = ⟨(putUsersToFile (s ++ [r]) fileName w).1, writer,
          (putUsersToFile (s ++ [r]) fileName w).2⟩ := by
  unfold addNewUser
  simp only [hitem, hstore, any_eq_false_of_fresh s r.ID hnew]
  rfl

/-- The branch of `addNewUser` for an id that the store holds already. -/
theorem addNewUser_existing (w : World) (fileName item : String) (writer : Writer)
    (s : List User) (r : User)
    (hstore : getUsersFromFile fileName w = Except.ok s)
    (hitem : Json.unmarshalUser item.data = some r)
    (hdup : ∃ v ∈ s, v.ID = r.ID) :
    addNewUser item fileName writer w
      = ⟨none, writer ++ ["Item with id " ++ r.ID ++ " already exists"], w⟩ := by
  unfold addNewUser
  simp only [hitem, hstore, any_eq_true_of_mem s r.ID hdup, if_true]
  rfl

theorem filter_fresh (s : List User) (id : String) (h : ∀ v ∈ s, v.ID ≠ id) :
    s.filter (fun v => v.ID != id) = s := by
  rw [List.filter_eq_self]
  intro v hv
  simpa using h v hv

theorem length_filter_add_count (s : List User) (id : String) :
    (s.filter (fun v => v.ID != id)).length + s.countP (fun v => v.ID == id) = s.length := by
  induction s with
  | nil => rfl
  | cons u us ih =>
    by_cases h : u.ID = id
    · simp [List.filter_cons, List.countP_cons, h]
      omega
    · simp [List.filter_cons, List.countP_cons, h]
      omega

theorem countP_pos_of_mem (s : List User) (id : String) (h : ∃ v ∈ s, v.ID = id) :
    0 < s.countP (fun v => v.ID == id) := by
  rw [List.countP_pos_iff]
  obtain ⟨v, hv, hid⟩ := h
  exact ⟨v, hv, by simpa using hid⟩

/-- The branch of `removeUser` for an id that the store holds. -/
theorem removeUser_present (w : World) (fileName id : String) (writer : Writer) (s : List User)
    (hstore : getUsersFromFile fileName w = Except.ok s)
    (hmem : ∃ v ∈ s, v.ID = id) :
    removeUser id fileName writer w
      = ⟨(putUsersToFile (s.filter (fun v => v.ID != id)) fileName w).1, writer,
          (putUsersToFile (s.filter (fun v => v.ID != id)) fileName w).2⟩ := by
  have h1 := length_filter_add_count s id
  have h2 := countP_pos_of_mem s id hmem
  have h3 : s.length ≠ (s.filter (fun v => v.ID != id)).length := by omega
  unfold removeUser
  simp only [hstore, h3, ne_eq, not_false_eq_true, if_true]

/-- The branch of `removeUser` for an id that the store does not hold. -/
theorem removeUser_absent (w : World) (fileName id : String) (writer : Writer) (s : List User)
    (hstore : getUsersFromFile fileName w = Except.ok s)
    (hnone : ∀ v ∈ s, v.ID ≠ id) :
    removeUser id fileName writer w
      = ⟨none, writer ++ ["Item with id " ++ id ++ " not found"], w⟩ := by
  unfold removeUser
  simp only [hstore, filter_fresh s id hnone, ne_eq, not_true_eq_false, if_false]
  rfl

theorem find_fresh (s : List User) (id : String) (h : ∀ v ∈ s, v.ID ≠ id) :
    s.find? (fun v => v.ID == id) = none := by
  rw [List.find?_eq_none]
  intro v hv
  simpa using h v hv

/-- The branch of `findUser` for an id that the store does not hold. -/
theorem findUser_absent (w : World) (fileName id : String) (writer : Writer) (s : List User)
    (hstore : getUsersFromFile fileName w = Except.ok s)
    (hnone : ∀ v ∈ s, v.ID ≠ id) :
    findUser id fileName writer w = ⟨none, writer, w⟩ := by
  unfold findUser
  simp only [hstore, find_fresh s id hnone]

/-- The branch of `findUser` for a store whose first record of the id is `v`. -/
theorem findUser_found (w : World) (fileName id : String) (writer : Writer) (s : List User)
    (v : User) (hstore : getUsersFromFile fileName w = Except.ok s)
    (hfind : s.find? (fun u => u.ID == id) = some v) :
    findUser id fileName writer w = ⟨none, writer ++ [String.mk (Json.encodeUser v)], w⟩ := by
  unfold findUser
  simp only [hstore, hfind]
  rfl

theorem filter_no_id (s : List User) (id : String) :
    ∀ v ∈ s.filter (fun v => v.ID != id), v.ID ≠ id := by
  intro v hv
  have := (List.mem_filter.mp hv).2
  simpa using this

theorem message_ne_empty (a b c : String) (h : a ≠ "") : a ++ b ++ c ≠ "" := by
  intro h1
  have h2 : (a ++ b ++ c).data = [] := by rw [h1]
  simp only [String.data_append, List.append_eq_nil] at h2
  apply h
  cases a with
  | mk l =>
    have : l = [] := h2.1.1
    subst this
    rfl

/-! ## Where the errors of the operations come from -/

theorem getUsersFromFile_error (fileName : String) (w : World) (e : Err)
    (h : getUsersFromFile fileName w = Except.error e) : e.fromLibrary := by
  unfold getUsersFromFile at h
  split at h
  · simp only [Except.error.injEq] at h
    rw [← h]; trivial
  · simp at h
  · split_ifs at h
    split at h
    · simp only [Except.error.injEq] at h
      rw [← h]; trivial
    · simp at h

theorem putUsersToFile_error (users : List User) (fileName : String) (w : World) (e : Err)
    (h : (putUsersToFile users fileName w).1 = some e) : e.fromLibrary := by
  unfold putUsersToFile writeFile at h
  split at h
  · simp only [Option.some.injEq] at h
    rw [← h]; trivial
  · simp only [Option.some.injEq] at h
    rw [← h]; trivial
  · simp at h

theorem listUsers_error (fileName : String) (writer : Writer) (w : World) (e : Err)
    (h : (listUsers fileName writer w).err = some e) : e.fromLibrary := by
  unfold listUsers at h
  split at h
  · next e1 h1 =>
    simp only [Option.some.injEq] at h
    rw [← h]; exact getUsersFromFile_error _ _ _ h1
  · split_ifs at h

theorem findUser_error (id fileName : String) (writer : Writer) (w : World) (e : Err)
    (h : (findUser id fileName writer w).err = some e) : e.fromLibrary := by
  unfold findUser at h
  split at h
  · next e1 h1 =>
    simp only [Option.some.injEq] at h
    rw [← h]; exact getUsersFromFile_error _ _ _ h1
  · split at h <;> simp at h

theorem removeUser_error (id fileName : String) (writer : Writer) (w : World) (e : Err)
    (h : (removeUser id fileName writer w).err = some e) : e.fromLibrary := by
  unfold removeUser at h
  split at h
  · next e1 h1 =>
    simp only [Option.some.injEq] at h
    rw [← h]; exact getUsersFromFile_error _ _ _ h1
  · simp only at h
    split_ifs at h
    exact putUsersToFile_error _ _ _ _ h

theorem addNewUser_error (item fileName : String) (writer : Writer) (w : World) (e : Err)
    (h : (addNewUser item fileName writer w).err = some e) : e.fromLibrary := by
  unfold addNewUser at h
  split at h
  · simp only [Option.some.injEq] at h
    rw [← h]; trivial
  · split at h
    · next e1 h1 =>
      simp only [Option.some.injEq] at h
      rw [← h]; exact getUsersFromFile_error _ _ _ h1
    · split_ifs at h
      exact putUsersToFile_error _ _ _ _ h

theorem flagValue_some (args : Arguments) (flagName v : String)
    (h1 : args flagName = some v) (h2 : v ≠ "") : flagValue args flagName = some v := by
  unfold flagValue
  rw [h1]
  simp only [if_neg h2]

theorem flagValue_none (args : Arguments) (flagName : String)
    (h : args flagName = none ∨ args flagName = some "") : flagValue args flagName = none := by
  unfold flagValue
  rcases h with h | h <;> rw [h]
  simp

theorem flagValue_eq_none (args : Arguments) (flagName : String)
    (h : flagValue args flagName = none) : args flagName = none ∨ args flagName = some "" := by
  unfold flagValue at h
  split at h
  · next h1 => exact Or.inl h1
  · next v h1 =>
    split_ifs at h with h2
    rw [h2] at h1; exact Or.inr h1

theorem notAllowed_ne (operation : String) (flagName : String) :
    Err.errorf ("Operation " ++ operation ++ " not allowed!") ≠ buildMissingFlagError flagName := by
  intro h
  unfold buildMissingFlagError at h
  simp only [Err.errorf.injEq] at h
  have h2 := congrArg String.data h
  simp only [String.data_append] at h2
  have h3 : ("Operation ".data ++ operation.data ++ " not allowed!".data).head? = some 'O' := rfl
  have h4 : ("-".data ++ flagName.data ++ " flag has to be specified".data).head? = some '-' := rfl
  rw [h2, h4] at h3
  exact absurd h3 (by decide)

/-! ## The claims -/

/-- C1. A store that decodes and holds no record of the id of `r`, and a payload
that decodes to `r`: once `add` has succeeded, `findById` of that id on the
resulting store returns no error and writes exactly the JSON encoding of `r`,
which decodes back to `r`. -/
theorem add_then_findById (w : World) (fileName item : String) (writer writer2 : Writer)
    (s : List User) (r : User)
    (hstore : getUsersFromFile fileName w = Except.ok s)
    (hnew : ∀ v ∈ s, v.ID ≠ r.ID)
    (hitem : Json.unmarshalUser item.data = some r)
    (hadd : (addNewUser item fileName writer w).err = none) :
    (findUser r.ID fileName writer2 (addNewUser item fileName writer w).world).err = none ∧
    (findUser r.ID fileName writer2 (addNewUser item fileName writer w).world).out
      = writer2 ++ [String.mk (Json.encodeUser r)] ∧
    Json.unmarshalUser (String.mk (Json.encodeUser r)).data = some r := by
  have hr : r.valid := Json.unmarshalUser_valid _ _ hitem
  have hs := getUsersFromFile_valid fileName w s hstore
  rw [addNewUser_fresh w fileName item writer s r hstore hitem hnew] at hadd ⊢
  have hall : ∀ u ∈ s ++ [r], u.valid := by
    intro u hu
    rcases List.mem_append.mp hu with h | h
    · exact hs u h
    · rw [List.mem_singleton.mp h]; exact hr
  have hload := getUsersFromFile_putUsersToFile (s ++ [r]) fileName w hall hadd
  have hfind : (s ++ [r]).find? (fun u => u.ID == r.ID) = some r := by
    rw [List.find?_append, find_fresh s r.ID hnew]
    simp
  rw [findUser_found _ fileName r.ID writer2 (s ++ [r]) r hload hfind]
  exact ⟨rfl, rfl, Json.unmarshalUser_encodeUser r hr⟩

theorem add_then_findById_witness :
    (findUser "1" "users.json" [] (addNewUser aliceItem "users.json" []
      (oneFile "users.json" bobStore)).world).err = none ∧
    (findUser "1" "users.json" [] (addNewUser aliceItem "users.json" []
      (oneFile "users.json" bobStore)).world).out = [] ++ [String.mk (Json.encodeUser alice)] ∧
    Json.unmarshalUser (String.mk (Json.encodeUser alice)).data = some alice :=
  add_then_findById (oneFile "users.json" bobStore) "users.json" aliceItem [] [] [bob] alice
    (by rfl) (by decide) (by decide) (by decide)

/-- C2. A store that decodes and a payload that decodes to `r`. If the store
holds a record with the id of `r`, `add` returns no error, writes exactly
`Item with id <id> already exists`, and leaves the file system as it was (no
call of `WriteFile`). And whenever a first `add` of the payload has returned no
error, a second `add` of the same payload does exactly that on the store the
first one left: the store, and so its length, stays as it was after the first. -/
theorem add_existing_id (w : World) (fileName item : String) (writer writer2 : Writer)
    (s : List User) (r : User)
    (hstore : getUsersFromFile fileName w = Except.ok s)
    (hitem : Json.unmarshalUser item.data = some r) :
    ((∃ v ∈ s, v.ID = r.ID) →
      (addNewUser item fileName writer w).err = none ∧
      (addNewUser item fileName writer w).out
        = writer ++ ["Item with id " ++ r.ID ++ " already exists"] ∧
      (addNewUser item fileName writer w).world = w) ∧
    ((addNewUser item fileName writer w).err = none →
      (addNewUser item fileName writer2 (addNewUser item fileName writer w).world).err = none ∧
      (addNewUser item fileName writer2 (addNewUser item fileName writer w).world).out
        = writer2 ++ ["Item with id " ++ r.ID ++ " already exists"] ∧
      (addNewUser item fileName writer2 (addNewUser item fileName writer w).world).world
        = (addNewUser item fileName writer w).world) := by
  constructor
  · intro hdup
    rw [addNewUser_existing w fileName item writer s r hstore hitem hdup]
    exact ⟨rfl, rfl, rfl⟩
  · intro hadd
    by_cases hdup : ∃ v ∈ s, v.ID = r.ID
    · rw [addNewUser_existing w fileName item writer s r hstore hitem hdup]
      show (addNewUser item fileName writer2 w).err = none ∧ _ ∧
        (addNewUser item fileName writer2 w).world = w
      rw [addNewUser_existing w fileName item writer2 s r hstore hitem hdup]
      exact ⟨rfl, rfl, rfl⟩
    · have hnew : ∀ v ∈ s, v.ID ≠ r.ID := fun v hv hid => hdup ⟨v, hv, hid⟩
      have hr : r.valid := Json.unmarshalUser_valid _ _ hitem
      have hs := getUsersFromFile_valid fileName w s hstore
      rw [addNewUser_fresh w fileName item writer s r hstore hitem hnew] at hadd ⊢
      have hall : ∀ u ∈ s ++ [r], u.valid := by
        intro u hu
        rcases List.mem_append.mp hu with h | h
        · exact hs u h
        · rw [List.mem_singleton.mp h]; exact hr
      have hload := getUsersFromFile_putUsersToFile (s ++ [r]) fileName w hall hadd
      have hin : ∃ v ∈ s ++ [r], v.ID = r.ID := ⟨r, by simp, rfl⟩
      show (addNewUser item fileName writer2 (putUsersToFile (s ++ [r]) fileName w).2).err = none
        ∧ _ ∧ (addNewUser item fileName writer2 (putUsersToFile (s ++ [r]) fileName w).2).world
          = (putUsersToFile (s ++ [r]) fileName w).2
      rw [addNewUser_existing _ fileName item writer2 (s ++ [r]) r hload hitem hin]
      exact ⟨rfl, rfl, rfl⟩

theorem add_existing_id_witness :
    ((addNewUser aliceItem "users.json" [] (oneFile "users.json" twinStore)).err = none ∧
      (addNewUser aliceItem "users.json" [] (oneFile "users.json" twinStore)).out
        = [] ++ ["Item with id " ++ alice.ID ++ " already exists"] ∧
      (addNewUser aliceItem "users.json" [] (oneFile "users.json" twinStore)).world
        = oneFile "users.json" twinStore) ∧
    (addNewUser aliceItem "users.json" []
      (addNewUser aliceItem "users.json" [] emptyWorld).world).world
        = (addNewUser aliceItem "users.json" [] emptyWorld).world :=
  ⟨(add_existing_id (oneFile "users.json" twinStore) "users.json" aliceItem [] []
      [alice, ⟨"1", "x@y.z", 7⟩] alice (by rfl) (by decide)).1 ⟨alice, by decide, rfl⟩,
   ((add_existing_id emptyWorld "users.json" aliceItem [] [] [] alice (by rfl) (by decide)).2
      (by decide)).2.2⟩

/-- C3, as amended. A store that decodes and holds a record with id `i`, in a
file that can be written: `remove` of `i` returns no error and leaves a store
whose length is the original length less the number of records with id `i`
(one less when `i` occurs once); a later `findById` of `i` returns no error and
writes nothing. -/
theorem remove_present_id (w : World) (fileName i : String) (writer writer2 : Writer)
    (s : List User)
    (hstore : getUsersFromFile fileName w = Except.ok s)
    (hmem : ∃ v ∈ s, v.ID = i)
    (hwrite : w.writeErr fileName = none) :
    (removeUser i fileName writer w).err = none ∧
    (∃ s1, getUsersFromFile fileName (removeUser i fileName writer w).world = Except.ok s1 ∧
      s1.length + s.countP (fun v => v.ID == i) = s.length) ∧
    (findUser i fileName writer2 (removeUser i fileName writer w).world).err = none ∧
    (findUser i fileName writer2 (removeUser i fileName writer w).world).out = writer2 := by
  have hput := (putUsersToFile_err (s.filter (fun v => v.ID != i)) fileName w).mpr hwrite
  have hs := getUsersFromFile_valid fileName w s hstore
  have hall : ∀ u ∈ s.filter (fun v => v.ID != i), u.valid :=
    fun u hu => hs u (List.mem_filter.mp hu).1
  have hload := getUsersFromFile_putUsersToFile _ fileName w hall hput
  have hcount := length_filter_add_count s i
  rw [removeUser_present w fileName i writer s hstore hmem]
  refine ⟨hput, ⟨_, hload, hcount⟩, ?_⟩
  show (findUser i fileName writer2 (putUsersToFile _ fileName w).2).err = none ∧
    (findUser i fileName writer2 (putUsersToFile _ fileName w).2).out = writer2
  rw [findUser_absent _ fileName i writer2 _ hload (filter_no_id s i)]
  exact ⟨rfl, rfl⟩

theorem remove_present_id_witness :
    (removeUser "2" "users.json" [] (oneFile "users.json" bobStore)).err = none ∧
    (∃ s1, getUsersFromFile "users.json"
        (removeUser "2" "users.json" [] (oneFile "users.json" bobStore)).world = Except.ok s1 ∧
      s1.length + [bob].countP (fun v => v.ID == "2") = [bob].length) ∧
    (findUser "2" "users.json" []
      (removeUser "2" "users.json" [] (oneFile "users.json" bobStore)).world).err = none ∧
    (findUser "2" "users.json" []
      (removeUser "2" "users.json" [] (oneFile "users.json" bobStore)).world).out = [] :=
  remove_present_id (oneFile "users.json" bobStore) "users.json" "2" [] [] [bob]
    (by rfl) ⟨bob, by decide, rfl⟩ (by rfl)

/-- C3 as stated fails twice. With two records of the id in the store (the file
`twinStore`), `remove` leaves a store two records shorter, not one. And in a
file that cannot be written, `remove` of an id that is present returns the
error of the write. -/
theorem remove_present_id_counterexample :
    (getUsersFromFile "users.json" (oneFile "users.json" twinStore)
        = Except.ok [alice, ⟨"1", "x@y.z", 7⟩] ∧
      (removeUser "1" "users.json" [] (oneFile "users.json" twinStore)).err = none ∧
      getUsersFromFile "users.json"
        (removeUser "1" "users.json" [] (oneFile "users.json" twinStore)).world = Except.ok [] ∧
      ([] : List User).length + 1 ≠ [alice, (⟨"1", "x@y.z", 7⟩ : User)].length) ∧
    (getUsersFromFile "users.json" (readOnlyFile "users.json" bobStore "permission denied")
        = Except.ok [bob] ∧
      (removeUser "2" "users.json" [] (readOnlyFile "users.json" bobStore "permission denied")).err
        = some (Err.os "permission denied")) :=
  ⟨⟨by rfl, by decide, by rfl, by decide⟩, by rfl, by decide⟩

/-- C4. A store that decodes (an absent or empty file included) and holds no
record with id `i`: `remove` of `i` returns no error, writes exactly
`Item with id <i> not found`, and leaves the file system as it was: no call of
`WriteFile`, and an absent file stays absent. -/
theorem remove_absent_id (w : World) (fileName i : String) (writer : Writer) (s : List User)
    (hstore : getUsersFromFile fileName w = Except.ok s)
    (hnone : ∀ v ∈ s, v.ID ≠ i) :
    (removeUser i fileName writer w).err = none ∧
    (removeUser i fileName writer w).out = writer ++ ["Item with id " ++ i ++ " not found"] ∧
    (removeUser i fileName writer w).world = w ∧
    (removeUser i fileName writer w).world.writes = w.writes ∧
    (removeUser i fileName writer w).world.files fileName = w.files fileName := by
  rw [removeUser_absent w fileName i writer s hstore hnone]
  exact ⟨rfl, rfl, rfl, rfl, rfl⟩

theorem remove_absent_id_witness :
    (removeUser "1" "users.json" [] emptyWorld).err = none ∧
    (removeUser "1" "users.json" [] emptyWorld).out
      = [] ++ ["Item with id " ++ "1" ++ " not found"] ∧
    (removeUser "1" "users.json" [] emptyWorld).world = emptyWorld ∧
    (removeUser "1" "users.json" [] emptyWorld).world.writes = emptyWorld.writes ∧
    (removeUser "1" "users.json" [] emptyWorld).world.files "users.json"
      = emptyWorld.files "users.json" :=
  remove_absent_id emptyWorld "users.json" "1" [] [] (by rfl) (by decide)

/-- C5. A non-empty sequence of records that the program has persisted
(`putUsersToFile` returned no error): `list` returns no error and writes one
text, and that text decodes, as a JSON array of records, to the very sequence. -/
theorem list_roundtrip (w : World) (fileName : String) (writer : Writer) (us : List User)
    (hne : us ≠ [])
    (hvalid : ∀ u ∈ us, u.valid)
    (hput : (putUsersToFile us fileName w).1 = none) :
    (listUsers fileName writer (putUsersToFile us fileName w).2).err = none ∧
    ∃ output : String,
      (listUsers fileName writer (putUsersToFile us fileName w).2).out = writer ++ [output] ∧
      Json.unmarshalUsers output.data = some us := by
  have hload := getUsersFromFile_putUsersToFile us fileName w hvalid hput
  have hlen : 0 < us.length := List.length_pos.mpr hne
  unfold listUsers
  simp only [hload, hlen, if_true]
  exact ⟨trivial, _, rfl, Json.unmarshalUsers_encodeUsers us hvalid⟩

theorem list_roundtrip_witness :
    (listUsers "users.json" [] (putUsersToFile [alice, bob] "users.json" emptyWorld).2).err = none ∧
    ∃ output : String,
      (listUsers "users.json" [] (putUsersToFile [alice, bob] "users.json" emptyWorld).2).out
        = [] ++ [output] ∧
      Json.unmarshalUsers output.data = some [alice, bob] :=
  list_roundtrip emptyWorld "users.json" [] [alice, bob] (by decide) (by decide) (by rfl)

/-- C6. A store that decodes (an absent or empty file included) and holds no
record with id `i`: `findById` of `i` returns no error, writes nothing and
leaves the file system as it was, while `remove` of `i` on the same store writes
a message that is not empty. -/
theorem findById_absent_id (w : World) (fileName i : String) (writer : Writer) (s : List User)
    (hstore : getUsersFromFile fileName w = Except.ok s)
    (hnone : ∀ v ∈ s, v.ID ≠ i) :
    (findUser i fileName writer w).err = none ∧
    (findUser i fileName writer w).out = writer ∧
    (findUser i fileName writer w).world = w ∧
    ∃ msg : String, (removeUser i fileName writer w).out = writer ++ [msg] ∧ msg ≠ "" := by
  rw [findUser_absent w fileName i writer s hstore hnone,
    removeUser_absent w fileName i writer s hstore hnone]
  exact ⟨rfl, rfl, rfl, _, rfl, message_ne_empty _ _ _ (by decide)⟩

theorem findById_absent_id_witness :
    (findUser "1" "users.json" [] (oneFile "users.json" bobStore)).err = none ∧
    (findUser "1" "users.json" [] (oneFile "users.json" bobStore)).out = [] ∧
    (findUser "1" "users.json" [] (oneFile "users.json" bobStore)).world
      = oneFile "users.json" bobStore ∧
    ∃ msg : String, (removeUser "1" "users.json" [] (oneFile "users.json" bobStore)).out
      = [] ++ [msg] ∧ msg ≠ "" :=
  findById_absent_id (oneFile "users.json" bobStore) "users.json" "1" [] [bob]
    (by rfl) (by decide)

/-- C7, as amended. Arguments whose operation is present and not empty
(whatever it is, one of the four or not) and whose `fileName` is absent or
empty, whatever the other flags: `Perform` returns the error
`-fileName flag has to be specified`, writes nothing and leaves the file system
as it was. -/
theorem missing_fileName (args : Arguments) (writer : Writer) (w : World) (operation : String)
    (hop : args operationFlag = some operation) (hne : operation ≠ "")
    (hfile : args fileNameFlag = none ∨ args fileNameFlag = some "") :
    (Perform args writer w).err = some (Err.errorf "-fileName flag has to be specified") ∧
    (Perform args writer w).out = writer ∧
    (Perform args writer w).world = w := by
  unfold Perform
  simp only [flagValue_some args operationFlag operation hop hne,
    flagValue_none args fileNameFlag hfile]
  exact ⟨by decide, trivial, trivial⟩

theorem missing_fileName_witness :
    (Perform (onlyOperation "list") [] emptyWorld).err
      = some (Err.errorf "-fileName flag has to be specified") ∧
    (Perform (onlyOperation "list") [] emptyWorld).out = [] ∧
    (Perform (onlyOperation "list") [] emptyWorld).world = emptyWorld :=
  missing_fileName (onlyOperation "list") [] emptyWorld "list" (by decide) (by decide)
    (Or.inl (by decide))

/-- C7 as stated fails when the operation is missing too: the operation is
checked first, so on the empty arguments map, where `fileName` is absent,
`Perform` returns `-operation flag has to be specified`. -/
theorem missing_fileName_counterexample :
    noArgs fileNameFlag = none ∧
    (Perform noArgs [] emptyWorld).err = some (Err.errorf "-operation flag has to be specified") ∧
    (Perform noArgs [] emptyWorld).err ≠ some (Err.errorf "-fileName flag has to be specified") :=
  ⟨by decide, by decide, by decide⟩

/-- C8, as amended. Arguments whose operation `v` is not empty and is none of
`add`, `list`, `findById`, `remove`, and whose `fileName` is present and not
empty: `Perform` returns the error `Operation <v> not allowed!`, writes nothing
and leaves the file system as it was. -/
theorem unknown_operation (args : Arguments) (writer : Writer) (w : World) (v fileName : String)
    (hop : args operationFlag = some v) (hne : v ≠ "")
    (hnot : v ≠ addCommand ∧ v ≠ listCommand ∧ v ≠ findByIdCommand ∧ v ≠ removeCommand)
    (hfile : args fileNameFlag = some fileName) (hfne : fileName ≠ "") :
    (Perform args writer w).err = some (Err.errorf ("Operation " ++ v ++ " not allowed!")) ∧
    (Perform args writer w).out = writer ∧
    (Perform args writer w).world = w := by
  unfold Perform
  simp only [flagValue_some args operationFlag v hop hne,
    flagValue_some args fileNameFlag fileName hfile hfne,
    if_neg hnot.1, if_neg hnot.2.1, if_neg hnot.2.2.1, if_neg hnot.2.2.2]
  exact ⟨trivial, trivial, trivial⟩

theorem unknown_operation_witness :
    (Perform (mkArgs "update" "" "users.json" "") [] emptyWorld).err
      = some (Err.errorf ("Operation " ++ "update" ++ " not allowed!")) ∧
    (Perform (mkArgs "update" "" "users.json" "") [] emptyWorld).out = [] ∧
    (Perform (mkArgs "update" "" "users.json" "") [] emptyWorld).world = emptyWorld :=
  unknown_operation (mkArgs "update" "" "users.json" "") [] emptyWorld "update" "users.json"
    (by decide) (by decide) (by decide) (by decide) (by decide)

/-- C8 as stated fails when an earlier check fires. With the operation `update`
and no `fileName`, `Perform` returns `-fileName flag has to be specified`; with
the empty operation, which is none of the four, it returns
`-operation flag has to be specified`. -/
theorem unknown_operation_counterexample :
    ((onlyOperation "update") operationFlag = some "update" ∧
      (Perform (onlyOperation "update") [] emptyWorld).err
        = some (Err.errorf "-fileName flag has to be specified") ∧
      (Perform (onlyOperation "update") [] emptyWorld).err
        ≠ some (Err.errorf "Operation update not allowed!")) ∧
    ((mkArgs "" "" "users.json" "") operationFlag = some "" ∧
      (Perform (mkArgs "" "" "users.json" "") [] emptyWorld).err
        = some (Err.errorf "-operation flag has to be specified") ∧
      (Perform (mkArgs "" "" "users.json" "") [] emptyWorld).err
        ≠ some (Err.errorf "Operation  not allowed!")) :=
  ⟨⟨by decide, by decide, by decide⟩, by decide, by decide, by decide⟩

/-- C9. Arguments whose operation and `fileName` are present and not empty:
`Perform` returns `-item flag has to be specified` exactly when the operation is
`add` and `item` is absent or empty, and `-id flag has to be specified` exactly
when the operation is `findById` or `remove` and `id` is absent or empty. So
`list` needs neither, `add` does not need `id`, `findById` and `remove` do not
need `item`. -/
theorem required_flags (args : Arguments) (writer : Writer) (w : World)
    (operation fileName : String)
    (hop : args operationFlag = some operation) (hne : operation ≠ "")
    (hfile : args fileNameFlag = some fileName) (hfne : fileName ≠ "") :
    ((Perform args writer w).err = some (Err.errorf "-item flag has to be specified") ↔
      operation = addCommand ∧ (args itemFlag = none ∨ args itemFlag = some "")) ∧
    ((Perform args writer w).err = some (Err.errorf "-id flag has to be specified") ↔
      (operation = findByIdCommand ∨ operation = removeCommand) ∧
        (args idFlag = none ∨ args idFlag = some "")) := by
  have hitem : buildMissingFlagError itemFlag = Err.errorf "-item flag has to be specified" := by
    decide
  have hid : buildMissingFlagError idFlag = Err.errorf "-id flag has to be specified" := by
    decide
  have hlib : ∀ e : Err, e.fromLibrary → ∀ msg, e ≠ Err.errorf msg := by
    intro e he msg h
    rw [h] at he
    exact he
  have hna1 := notAllowed_ne operation itemFlag
  have hna2 := notAllowed_ne operation idFlag
  rw [hitem] at hna1
  rw [hid] at hna2
  have hP : Perform args writer w =
      (if operation = listCommand then listUsers fileName writer w
      else if operation = addCommand then
        match flagValue args itemFlag with
        | none => ⟨some (buildMissingFlagError itemFlag), writer, w⟩
        | some item => addNewUser item fileName writer w
      else if operation = removeCommand then
        match flagValue args idFlag with
        | none => ⟨some (buildMissingFlagError idFlag), writer, w⟩
        | some id => removeUser id fileName writer w
      else if operation = findByIdCommand then
        match flagValue args idFlag with
        | none => ⟨some (buildMissingFlagError idFlag), writer, w⟩
        | some id => findUser id fileName writer w
      else ⟨some (Err.errorf ("Operation " ++ operation ++ " not allowed!")), writer, w⟩) := by
    unfold Perform
    simp only [flagValue_some args operationFlag operation hop hne,
      flagValue_some args fileNameFlag fileName hfile hfne]
  rw [hP]
  by_cases h1 : operation = listCommand
  · have e1 : operation ≠ addCommand := by rw [h1]; decide
    have e2 : operation ≠ findByIdCommand := by rw [h1]; decide
    have e3 : operation ≠ removeCommand := by rw [h1]; decide
    rw [if_pos h1]
    constructor
    · constructor
      · intro h
        exact absurd rfl (hlib _ (listUsers_error _ _ _ _ h) _)
      · intro h; exact absurd h.1 e1
    · constructor
      · intro h
        exact absurd rfl (hlib _ (listUsers_error _ _ _ _ h) _)
      · intro h
        rcases h.1 with h | h
        · exact absurd h e2
        · exact absurd h e3
  · rw [if_neg h1]
    by_cases h2 : operation = addCommand
    · have e2 : operation ≠ findByIdCommand := by rw [h2]; decide
      have e3 : operation ≠ removeCommand := by rw [h2]; decide
      rw [if_pos h2]
      cases hv : flagValue args itemFlag with
      | none =>
        have hmiss := flagValue_eq_none args itemFlag hv
        simp only [hitem]
        constructor
        · exact ⟨fun _ => ⟨h2, hmiss⟩, fun _ => trivial⟩
        · constructor
          · intro h; exact absurd h (by decide)
          · intro h
            rcases h.1 with h | h
            · exact absurd h e2
            · exact absurd h e3
      | some item =>
        have hpresent : ¬ (args itemFlag = none ∨ args itemFlag = some "") := by
          intro h
          rw [flagValue_none args itemFlag h] at hv
          exact absurd hv (by simp)
        simp only
        constructor
        · constructor
          · intro h
            exact absurd rfl (hlib _ (addNewUser_error _ _ _ _ _ h) _)
          · intro h; exact absurd h.2 hpresent
        · constructor
          · intro h
            exact absurd rfl (hlib _ (addNewUser_error _ _ _ _ _ h) _)
          · intro h
            rcases h.1 with h | h
            · exact absurd h e2
            · exact absurd h e3
    · rw [if_neg h2]
      by_cases h3 : operation = removeCommand
      · rw [if_pos h3]
        cases hv : flagValue args idFlag with
        | none =>
          have hmiss := flagValue_eq_none args idFlag hv
          simp only [hid]
          constructor
          · constructor
            · intro h; exact absurd h (by decide)
            · intro h; exact absurd h.1 h2
          · exact ⟨fun _ => ⟨Or.inr h3, hmiss⟩, fun _ => trivial⟩
        | some id =>
          have hpresent : ¬ (args idFlag = none ∨ args idFlag = some "") := by
            intro h
            rw [flagValue_none args idFlag h] at hv
            exact absurd hv (by simp)
          simp only
          constructor
          · constructor
            · intro h
              exact absurd rfl (hlib _ (removeUser_error _ _ _ _ _ h) _)
            · intro h; exact absurd h.1 h2
          · constructor
            · intro h
              exact absurd rfl (hlib _ (removeUser_error _ _ _ _ _ h) _)
            · intro h; exact absurd h.2 hpresent
      · rw [if_neg h3]
        by_cases h4 : operation = findByIdCommand
        · rw [if_pos h4]
          cases hv : flagValue args idFlag with
          | none =>
            have hmiss := flagValue_eq_none args idFlag hv
            simp only [hid]
            constructor
            · constructor
              · intro h; exact absurd h (by decide)
              · intro h; exact absurd h.1 h2
            · exact ⟨fun _ => ⟨Or.inl h4, hmiss⟩, fun _ => trivial⟩
          | some id =>
            have hpresent : ¬ (args idFlag = none ∨ args idFlag = some "") := by
              intro h
              rw [flagValue_none args idFlag h] at hv
              exact absurd hv (by simp)
            simp only
            constructor
            · constructor
              · intro h
                exact absurd rfl (hlib _ (findUser_error _ _ _ _ _ h) _)
              · intro h; exact absurd h.1 h2
            · constructor
              · intro h
                exact absurd rfl (hlib _ (findUser_error _ _ _ _ _ h) _)
              · intro h; exact absurd h.2 hpresent
        · rw [if_neg h4]
          constructor
          · constructor
            · intro h
              simp only [Option.some.injEq] at h
              exact absurd h hna1
            · intro h; exact absurd h.1 h2
          · constructor
            · intro h
              simp only [Option.some.injEq] at h
              exact absurd h hna2
            · intro h
              rcases h.1 with h | h
              · exact absurd h h4
              · exact absurd h h3

theorem required_flags_witness :
    ((Perform (mkArgs "add" "" "users.json" "") [] emptyWorld).err
        = some (Err.errorf "-item flag has to be specified") ↔
      "add" = addCommand ∧ ((mkArgs "add" "" "users.json" "") itemFlag = none ∨
        (mkArgs "add" "" "users.json" "") itemFlag = some "")) ∧
    ((Perform (mkArgs "add" "" "users.json" "") [] emptyWorld).err
        = some (Err.errorf "-id flag has to be specified") ↔
      ("add" = findByIdCommand ∨ "add" = removeCommand) ∧
        ((mkArgs "add" "" "users.json" "") idFlag = none ∨
          (mkArgs "add" "" "users.json" "") idFlag = some "")) :=
  required_flags (mkArgs "add" "" "users.json" "") [] emptyWorld "add" "users.json"
    (by decide) (by decide) (by decide) (by decide)

/-- C10, as amended. A path with no file and a file of length zero are both
the empty record set: on either, the load gives the empty sequence, `list`
returns no error and writes nothing, and `add` of a payload that decodes to `r`,
when the file can be written, returns no error and leaves a store that decodes
to exactly the one-element sequence `[r]`; when the write fails, whatever the
failure, `add` returns the error of the write. -/
theorem absent_or_empty_file (w : World) (fileName item : String) (writer : Writer) (r : User)
    (hfile : w.files fileName = File.absent ∨ w.files fileName = File.content "") :
    getUsersFromFile fileName w = Except.ok [] ∧
    (listUsers fileName writer w).err = none ∧
    (listUsers fileName writer w).out = writer ∧
    (Json.unmarshalUser item.data = some r → w.writeErr fileName = none →
      (addNewUser item fileName writer w).err = none ∧
      getUsersFromFile fileName (addNewUser item fileName writer w).world = Except.ok [r]) ∧
    (Json.unmarshalUser item.data = some r → ∀ failure, w.writeErr fileName = some failure →
      (addNewUser item fileName writer w).err = some (Err.os failure.msg)) := by
  have hload : getUsersFromFile fileName w = Except.ok [] := by
    unfold getUsersFromFile readFile
    rcases hfile with h | h <;> rw [h]
    rfl
  refine ⟨hload, ?_, ?_, ?_, ?_⟩
  · unfold listUsers
    rw [hload]
    rfl
  · unfold listUsers
    rw [hload]
    rfl
  · intro hitem hwrite
    have hr : r.valid := Json.unmarshalUser_valid _ _ hitem
    have hput := (putUsersToFile_err ([] ++ [r]) fileName w).mpr hwrite
    have hall : ∀ u ∈ ([] : List User) ++ [r], u.valid := by
      intro u hu
      rw [List.nil_append, List.mem_singleton] at hu
      rw [hu]; exact hr
    rw [addNewUser_fresh w fileName item writer [] r hload hitem (by simp)]
    exact ⟨hput, getUsersFromFile_putUsersToFile _ fileName w hall hput⟩
  · intro hitem failure hfail
    rw [addNewUser_fresh w fileName item writer [] r hload hitem (by simp)]
    show (putUsersToFile ([] ++ [r]) fileName w).1 = some (Err.os failure.msg)
    unfold putUsersToFile writeFile
    rw [hfail]
    cases failure <;> rfl

theorem absent_or_empty_file_witness :
    getUsersFromFile "users.json" (oneFile "users.json" "") = Except.ok [] ∧
    (listUsers "users.json" [] (oneFile "users.json" "")).err = none ∧
    (listUsers "users.json" [] (oneFile "users.json" "")).out = [] ∧
    (addNewUser aliceItem "users.json" [] (oneFile "users.json" "")).err = none ∧
    getUsersFromFile "users.json"
      (addNewUser aliceItem "users.json" [] (oneFile "users.json" "")).world
        = Except.ok [alice] ∧
    (addNewUser aliceItem "users.json" [] fullDisk).err
      = some (Err.os "no space left on device") :=
  match absent_or_empty_file (oneFile "users.json" "") "users.json" aliceItem [] alice
    (Or.inr (by decide)),
    absent_or_empty_file fullDisk "users.json" aliceItem [] alice (Or.inl (by decide)) with
  | ⟨h1, h2, h3, h4, _⟩, ⟨_, _, _, _, g5⟩ =>
    ⟨h1, h2, h3, (h4 (by decide) (by rfl)).1, (h4 (by decide) (by rfl)).2,
      g5 (by decide) (WriteFailure.afterOpen "no space left on device" 10) (by rfl)⟩

/-- C10 as stated fails where the file cannot be written: on a path with no
file, in a directory that does not exist, the load gives the empty set but
`add` of a well-formed payload returns the error of the write and leaves no
store behind. -/
theorem absent_or_empty_file_counterexample :
    (readOnlyWorld "no such file or directory").files "data/users.json" = File.absent ∧
    Json.unmarshalUser aliceItem.data = some alice ∧
    (addNewUser aliceItem "data/users.json" [] (readOnlyWorld "no such file or directory")).err
      = some (Err.os "no such file or directory") ∧
    getUsersFromFile "data/users.json"
      (addNewUser aliceItem "data/users.json" []
        (readOnlyWorld "no such file or directory")).world = Except.ok [] :=
  ⟨by decide, by decide, by decide, by rfl⟩

/-- C11. The scenario of the specification as an exact trace, on a file system
where `users.json` is an empty file: `add` of
`{"id":"1","email":"a@b.com","age":30}` leaves the file content exactly
`[{"id":"1","email":"a@b.com","age":30}]`; `findById` of `1` then writes exactly
`{"id":"1","email":"a@b.com","age":30}`; `remove` of `1` then leaves the file
content exactly `[]` (the file exists and holds an empty array); `findById` of
`1` then writes nothing. Every call returns no error. -/
theorem scenario_trace :
    (oneFile "users.json" "").files "users.json" = File.content "" ∧
    scenarioAdd.err = none ∧ scenarioAdd.out = [] ∧
    scenarioAdd.world.files "users.json"
      = File.content "[\x7b\"id\":\"1\",\"email\":\"a@b.com\",\"age\":30\x7d]" ∧
    scenarioFind.err = none ∧
    scenarioFind.out = ["\x7b\"id\":\"1\",\"email\":\"a@b.com\",\"age\":30\x7d"] ∧
    scenarioFind.world.files "users.json"
      = File.content "[\x7b\"id\":\"1\",\"email\":\"a@b.com\",\"age\":30\x7d]" ∧
    scenarioRemove.err = none ∧ scenarioRemove.out = [] ∧
    scenarioRemove.world.files "users.json" = File.content "[]" ∧
    scenarioFindAgain.err = none ∧ scenarioFindAgain.out = [] ∧
    scenarioFindAgain.world.files "users.json" = File.content "[]" := by
  refine ⟨?_, ?_, ?_, ?_, ?_, ?_, ?_, ?_, ?_, ?_, ?_, ?_, ?_⟩ <;> decide

/-- C12. A payload that does not decode as a record: `add` returns the decode
error, writes nothing and leaves the file system as it was (no call of
`WriteFile`), whatever the file holds; the store is not even read, so a file
that cannot be read or decoded does not change the error. -/
theorem add_malformed_payload (w : World) (fileName item : String) (writer : Writer)
    (hitem : Json.unmarshalUser item.data = none) :
    (addNewUser item fileName writer w).err = some Err.json ∧
    (addNewUser item fileName writer w).out = writer ∧
    (addNewUser item fileName writer w).world = w := by
  unfold addNewUser
  rw [hitem]
  exact ⟨rfl, rfl, rfl⟩

theorem add_malformed_payload_witness :
    (addNewUser badItem "users.json" [] (unreadableFile "users.json" "permission denied")).err
      = some Err.json ∧
    (addNewUser badItem "users.json" [] (unreadableFile "users.json" "permission denied")).out
      = [] ∧
    (addNewUser badItem "users.json" [] (unreadableFile "users.json" "permission denied")).world
      = unreadableFile "users.json" "permission denied" :=
  add_malformed_payload (unreadableFile "users.json" "permission denied") "users.json" badItem []
    (by decide)

theorem getUsersFromFile_corrupt (w : World) (fileName fileData : String)
    (hfile : w.files fileName = File.content fileData) (hne : fileData ≠ "")
    (hbad : Json.unmarshalUsers fileData.data = none) :
    getUsersFromFile fileName w = Except.error Err.json := by
  have hlen : 0 < fileData.length := by
    cases fileData with
    | mk l =>
      cases l with
      | nil => exact absurd rfl hne
      | cons c cs => exact Nat.succ_pos _
  unfold getUsersFromFile readFile
  rw [hfile]
  simp only [hlen, if_true, hbad]

/-- C13. A file whose content is not empty and does not decode as a JSON array
of records: `list`, `add` (with any payload, well-formed or not), `remove` and
`findById` each return the decode error, write nothing and leave the file
system, and so the content of the file, as it was. -/
theorem corrupt_store (w : World) (fileName fileData item id : String) (writer : Writer)
    (hfile : w.files fileName = File.content fileData) (hne : fileData ≠ "")
    (hbad : Json.unmarshalUsers fileData.data = none) :
    ((listUsers fileName writer w).err = some Err.json ∧
      (listUsers fileName writer w).out = writer ∧ (listUsers fileName writer w).world = w) ∧
    ((addNewUser item fileName writer w).err = some Err.json ∧
      (addNewUser item fileName writer w).out = writer ∧
      (addNewUser item fileName writer w).world = w) ∧
    ((removeUser id fileName writer w).err = some Err.json ∧
      (removeUser id fileName writer w).out = writer ∧
      (removeUser id fileName writer w).world = w) ∧
    ((findUser id fileName writer w).err = some Err.json ∧
      (findUser id fileName writer w).out = writer ∧
      (findUser id fileName writer w).world = w) := by
  have hload := getUsersFromFile_corrupt w fileName fileData hfile hne hbad
  refine ⟨?_, ?_, ?_, ?_⟩
  · unfold listUsers
    rw [hload]
    exact ⟨rfl, rfl, rfl⟩
  · unfold addNewUser
    cases hitem : Json.unmarshalUser item.data with
    | none => exact ⟨rfl, rfl, rfl⟩
    | some user =>
      simp only [hload]
      exact ⟨trivial, trivial, trivial⟩
  · unfold removeUser
    rw [hload]
    exact ⟨rfl, rfl, rfl⟩
  · unfold findUser
    rw [hload]
    exact ⟨rfl, rfl, rfl⟩

theorem corrupt_store_witness :
    ((listUsers "users.json" [] (oneFile "users.json" cutStore)).err = some Err.json ∧
      (listUsers "users.json" [] (oneFile "users.json" cutStore)).out = [] ∧
      (listUsers "users.json" [] (oneFile "users.json" cutStore)).world
        = oneFile "users.json" cutStore) ∧
    ((addNewUser aliceItem "users.json" [] (oneFile "users.json" cutStore)).err = some Err.json ∧
      (addNewUser aliceItem "users.json" [] (oneFile "users.json" cutStore)).out = [] ∧
      (addNewUser aliceItem "users.json" [] (oneFile "users.json" cutStore)).world
        = oneFile "users.json" cutStore) ∧
    ((removeUser "1" "users.json" [] (oneFile "users.json" cutStore)).err = some Err.json ∧
      (removeUser "1" "users.json" [] (oneFile "users.json" cutStore)).out = [] ∧
      (removeUser "1" "users.json" [] (oneFile "users.json" cutStore)).world
        = oneFile "users.json" cutStore) ∧
    ((findUser "1" "users.json" [] (oneFile "users.json" cutStore)).err = some Err.json ∧
      (findUser "1" "users.json" [] (oneFile "users.json" cutStore)).out = [] ∧
      (findUser "1" "users.json" [] (oneFile "users.json" cutStore)).world
        = oneFile "users.json" cutStore) :=
  corrupt_store (oneFile "users.json" cutStore) "users.json" cutStore aliceItem "1" []
    (by decide) (by decide) (by decide)

/-- C14, as amended. A store that decodes to `s` and holds a record with id
`i`, in a file that can be written: `remove` of `i` returns no error, writes
nothing to the output, issues one write, and leaves a file whose content is the
encoding of `s` without the records of id `i`, the others in their order; the
store then decodes to exactly that filtered sequence. -/
theorem remove_persists_filter (w : World) (fileName i : String) (writer : Writer)
    (s : List User)
    (hstore : getUsersFromFile fileName w = Except.ok s)
    (hmem : ∃ v ∈ s, v.ID = i)
    (hwrite : w.writeErr fileName = none) :
    (removeUser i fileName writer w).err = none ∧
    (removeUser i fileName writer w).out = writer ∧
    (removeUser i fileName writer w).world.files fileName
      = File.content (String.mk (Json.encodeUsers (s.filter (fun v => v.ID != i)))) ∧
    (removeUser i fileName writer w).world.writes
      = w.writes ++ [(fileName, String.mk (Json.encodeUsers (s.filter (fun v => v.ID != i))))] ∧
    getUsersFromFile fileName (removeUser i fileName writer w).world
      = Except.ok (s.filter (fun v => v.ID != i)) ∧
    (s.filter (fun v => v.ID != i)).Sublist s := by
  have hput := (putUsersToFile_err (s.filter (fun v => v.ID != i)) fileName w).mpr hwrite
  have hs := getUsersFromFile_valid fileName w s hstore
  have hall : ∀ u ∈ s.filter (fun v => v.ID != i), u.valid :=
    fun u hu => hs u (List.mem_filter.mp hu).1
  have hload := getUsersFromFile_putUsersToFile _ fileName w hall hput
  have hfiles := putUsersToFile_files _ fileName w hput
  have hlog : (putUsersToFile (s.filter (fun v => v.ID != i)) fileName w).2.writes
      = w.writes ++ [(fileName, String.mk (Json.encodeUsers (s.filter (fun v => v.ID != i))))] := by
    unfold putUsersToFile writeFile
    rw [hwrite]
  rw [removeUser_present w fileName i writer s hstore hmem]
  exact ⟨hput, rfl, hfiles, hlog, hload, List.filter_sublist s⟩

theorem remove_persists_filter_witness :
    (removeUser "1" "users.json" [] (oneFile "users.json" twinStore)).err = none ∧
    (removeUser "1" "users.json" [] (oneFile "users.json" twinStore)).out = [] ∧
    (removeUser "1" "users.json" [] (oneFile "users.json" twinStore)).world.files "users.json"
      = File.content (String.mk (Json.encodeUsers
          ([alice, ⟨"1", "x@y.z", 7⟩].filter (fun v => v.ID != "1")))) ∧
    (removeUser "1" "users.json" [] (oneFile "users.json" twinStore)).world.writes
      = (oneFile "users.json" twinStore).writes ++ [("users.json", String.mk (Json.encodeUsers
          ([alice, ⟨"1", "x@y.z", 7⟩].filter (fun v => v.ID != "1"))))] ∧
    getUsersFromFile "users.json"
      (removeUser "1" "users.json" [] (oneFile "users.json" twinStore)).world
        = Except.ok ([alice, ⟨"1", "x@y.z", 7⟩].filter (fun v => v.ID != "1")) ∧
    ([alice, ⟨"1", "x@y.z", 7⟩].filter (fun v => v.ID != "1")).Sublist
      [alice, ⟨"1", "x@y.z", 7⟩] :=
  remove_persists_filter (oneFile "users.json" twinStore) "users.json" "1" []
    [alice, ⟨"1", "x@y.z", 7⟩] (by rfl) ⟨alice, by decide, rfl⟩ (by rfl)

/-- C14 as stated fails where the file cannot be written: `remove` of an id
that is present returns the error of the write, and the store still holds the
record. -/
theorem remove_persists_filter_counterexample :
    getUsersFromFile "users.json" (readOnlyFile "users.json" bobStore "permission denied")
      = Except.ok [bob] ∧
    (removeUser "2" "users.json" [] (readOnlyFile "users.json" bobStore "permission denied")).err
      = some (Err.os "permission denied") ∧
    getUsersFromFile "users.json"
      (removeUser "2" "users.json" [] (readOnlyFile "users.json" bobStore "permission denied")).world
        = Except.ok [bob] ∧
    [bob].filter (fun v => v.ID != "2") ≠ [bob] :=
  ⟨by rfl, by decide, by rfl, by decide⟩

/-- C15. A store that decodes to `s` and holds no record with the id of `r`,
and a payload that decodes to `r`: when `add` returns no error it has written
nothing to the output, the file holds the encoding of `s` followed by `r`, and
the store decodes to exactly `s ++ [r]`: the old records unchanged and in their
order, the new one last, one record more. -/
theorem add_appends (w : World) (fileName item : String) (writer : Writer)
    (s : List User) (r : User)
    (hstore : getUsersFromFile fileName w = Except.ok s)
    (hnew : ∀ v ∈ s, v.ID ≠ r.ID)
    (hitem : Json.unmarshalUser item.data = some r)
    (hadd : (addNewUser item fileName writer w).err = none) :
    (addNewUser item fileName writer w).out = writer ∧
    (addNewUser item fileName writer w).world.files fileName
      = File.content (String.mk (Json.encodeUsers (s ++ [r]))) ∧
    getUsersFromFile fileName (addNewUser item fileName writer w).world = Except.ok (s ++ [r]) ∧
    (s ++ [r]).length = s.length + 1 := by
  have hr : r.valid := Json.unmarshalUser_valid _ _ hitem
  have hs := getUsersFromFile_valid fileName w s hstore
  rw [addNewUser_fresh w fileName item writer s r hstore hitem hnew] at hadd ⊢
  have hall : ∀ u ∈ s ++ [r], u.valid := by
    intro u hu
    rcases List.mem_append.mp hu with h | h
    · exact hs u h
    · rw [List.mem_singleton.mp h]; exact hr
  exact ⟨rfl, putUsersToFile_files _ fileName w hadd,
    getUsersFromFile_putUsersToFile _ fileName w hall hadd, by simp⟩

theorem add_appends_witness :
    (addNewUser aliceItem "users.json" [] (oneFile "users.json" bobStore)).out = [] ∧
    (addNewUser aliceItem "users.json" [] (oneFile "users.json" bobStore)).world.files
      "users.json" = File.content (String.mk (Json.encodeUsers ([bob] ++ [alice]))) ∧
    getUsersFromFile "users.json"
      (addNewUser aliceItem "users.json" [] (oneFile "users.json" bobStore)).world
        = Except.ok ([bob] ++ [alice]) ∧
    ([bob] ++ [alice]).length = [bob].length + 1 :=
  add_appends (oneFile "users.json" bobStore) "users.json" aliceItem [] [bob] alice
    (by rfl) (by decide) (by decide) (by decide)

/-- C16. A store that decodes to `front ++ v :: back`, where `v` has id `i` and
no record of `front` has: `findById` of `i` returns no error, leaves the file
system as it was and writes one text, the JSON encoding of `v`, whatever `back`
holds (further records of id `i` included); that text is a single JSON
object. -/
theorem findById_first (w : World) (fileName i : String) (writer : Writer)
    (front back : List User) (v : User)
    (hstore : getUsersFromFile fileName w = Except.ok (front ++ v :: back))
    (hfront : ∀ u ∈ front, u.ID ≠ i)
    (hv : v.ID = i) :
    (findUser i fileName writer w).err = none ∧
    (findUser i fileName writer w).out = writer ++ [String.mk (Json.encodeUser v)] ∧
    (findUser i fileName writer w).world = w ∧
    ∃ kvs, Json.parseJson (Json.encodeUser v) = some (Json.Value.obj kvs) := by
  have hfind : (front ++ v :: back).find? (fun u => u.ID == i) = some v := by
    rw [List.find?_append, find_fresh front i hfront]
    simp [hv]
  rw [findUser_found w fileName i writer _ v hstore hfind]
  exact ⟨rfl, rfl, rfl, _, Json.parseJson_encodeUser v⟩

theorem findById_first_witness :
    (findUser "1" "users.json" [] (oneFile "users.json" twinStore)).err = none ∧
    (findUser "1" "users.json" [] (oneFile "users.json" twinStore)).out
      = [] ++ [String.mk (Json.encodeUser alice)] ∧
    (findUser "1" "users.json" [] (oneFile "users.json" twinStore)).world
      = oneFile "users.json" twinStore ∧
    ∃ kvs, Json.parseJson (Json.encodeUser alice) = some (Json.Value.obj kvs) :=
  findById_first (oneFile "users.json" twinStore) "users.json" "1" [] []
    [⟨"1", "x@y.z", 7⟩] alice (by rfl) (by decide) (by decide)

/-! ## A cut copy of an encoding does not parse

What a failed write leaves is a text cut off somewhere. The parser reads a value
without looking past its end (numbers apart), so a text that parses cannot be
extended to another text that parses after non-space characters are added. -/

namespace Json

theorem skipSpace_append (cs ext : List Char) (h : skipSpace cs ≠ []) :
    skipSpace (cs ++ ext) = skipSpace cs ++ ext := by
  induction cs with
  | nil => exact absurd rfl h
  | cons c cs ih =>
    rw [List.cons_append, skipSpace, skipSpace]
    rw [skipSpace] at h
    by_cases hc : isSpace c = true
    · rw [if_pos hc] at h ⊢
      rw [if_pos hc]
      exact ih h
    · rw [if_neg hc, if_neg hc]
      rfl

theorem skipSpace_append_cons (cs ext : List Char) (d : Char) (r : List Char)
    (h : skipSpace cs = d :: r) : skipSpace (cs ++ ext) = d :: (r ++ ext) := by
  rw [skipSpace_append cs ext (by rw [h]; simp), h]
  rfl

theorem skipSpace_eq_nil (cs : List Char) (h : skipSpace cs = []) :
    ∀ c ∈ cs, isSpace c = true := by
  induction cs with
  | nil => intro c hc; simp at hc
  | cons c cs ih =>
    rw [skipSpace] at h
    by_cases hc : isSpace c = true
    · rw [if_pos hc] at h
      intro x hx
      rcases List.mem_cons.mp hx with hx | hx
      · rw [hx]; exact hc
      · exact ih h x hx
    · rw [if_neg hc] at h
      simp at h

theorem hex4_append (cs ext : List Char) (n : Nat) (r : List Char)
    (h : hex4 cs = some (n, r)) : hex4 (cs ++ ext) = some (n, r ++ ext) := by
  rcases cs with _ | ⟨a, _ | ⟨b, _ | ⟨c, _ | ⟨d, rest⟩⟩⟩⟩
  · simp [hex4] at h
  · simp [hex4] at h
  · simp [hex4] at h
  · simp [hex4] at h
  · simp only [List.cons_append]
    unfold hex4 at h ⊢
    cases ha : hexVal a <;> cases hb : hexVal b <;> cases hc : hexVal c <;>
      cases hd : hexVal d <;> simp only [ha, hb, hc, hd] at h ⊢ <;>
      first
      | (simp only [Option.some.injEq, Prod.mk.injEq] at h ⊢
         exact ⟨h.1, by rw [h.2]⟩)
      | simp at h

theorem getu4_append (cs ext : List Char) (n : Nat) (r : List Char)
    (h : getu4 cs = some (n, r)) : getu4 (cs ++ ext) = some (n, r ++ ext) := by
  rcases cs with _ | ⟨b, _ | ⟨u, rest⟩⟩
  · simp [getu4] at h
  · simp [getu4] at h
  · simp only [List.cons_append, getu4] at h ⊢
    by_cases hc : b = '\\' ∧ u = 'u'
    · rw [if_pos hc] at h ⊢
      exact hex4_append rest ext n r h
    · rw [if_neg hc] at h
      simp at h

theorem pushChar_eq_some (c : Char) (x : Option (List Char × List Char)) (s r : List Char)
    (h : pushChar c x = some (s, r)) : ∃ s1, x = some (s1, r) ∧ s = c :: s1 := by
  cases x with
  | none => simp [pushChar] at h
  | some y =>
    obtain ⟨s1, r1⟩ := y
    simp only [pushChar, Option.some.injEq, Prod.mk.injEq] at h
    exact ⟨s1, by rw [h.2], h.1.symm⟩

theorem parseChars_nil (fuel : Nat) : parseChars fuel [] = none := by
  cases fuel <;> rfl

/-- When the string parses from `cs`, an escape `\uXXXX` missing at the front of
`cs` is still missing after `cs` is extended. -/
theorem getu4_none_append (fuel : Nat) (cs ext : List Char) (x : List Char × List Char)
    (hp : parseChars fuel cs = some x) (hg : getu4 cs = none) : getu4 (cs ++ ext) = none := by
  cases fuel with
  | zero => simp [parseChars] at hp
  | succ f =>
    rcases cs with _ | ⟨b, _ | ⟨u, rest⟩⟩
    · simp [parseChars] at hp
    · have hb : b ≠ '\\' := by
        intro hb
        subst hb
        have hq : ('\\' : Char) ≠ '"' := by decide
        simp only [parseChars, if_neg hq, if_true] at hp
        exact absurd hp (by simp)
      cases ext with
      | nil => rfl
      | cons e ext =>
        simp only [List.cons_append, List.nil_append, getu4]
        rw [if_neg (fun h => hb h.1)]
    · simp only [List.cons_append, getu4] at hg ⊢
      by_cases hc : b = '\\' ∧ u = 'u'
      · rw [if_pos hc] at hg
        obtain ⟨hb, hu⟩ := hc
        subst hb
        subst hu
        have hq : ('\\' : Char) ≠ '"' := by decide
        simp only [parseChars, if_neg hq, if_true, hg] at hp
        exact absurd hp (by simp)
      · rw [if_neg hc]

theorem decodeU_append (fuel n : Nat) (cs ext : List Char) (x : List Char × List Char)
    (hp : parseChars fuel (decodeU n cs).2 = some x) :
    decodeU n (cs ++ ext) = ((decodeU n cs).1, (decodeU n cs).2 ++ ext) := by
  unfold decodeU at hp ⊢
  by_cases hs : 55296 ≤ n ∧ n < 57344
  · simp only [if_pos hs] at hp ⊢
    cases hg : getu4 cs with
    | none =>
      rw [hg] at hp
      simp only at hp
      rw [getu4_none_append fuel cs ext x hp hg]
    | some y =>
      obtain ⟨n1, rest1⟩ := y
      rw [getu4_append cs ext n1 rest1 hg]
      simp only
      by_cases hc : n < 56320 ∧ 56320 ≤ n1 ∧ n1 < 57344
      · simp only [if_pos hc]
      · simp only [if_neg hc]
  · simp only [if_neg hs]

theorem parseChars_append (ext : List Char) (fuel : Nat) :
    ∀ cs s r, parseChars fuel cs = some (s, r) →
      ∀ fuel1, fuel ≤ fuel1 → parseChars fuel1 (cs ++ ext) = some (s, r ++ ext) := by
  induction fuel with
  | zero => intro cs s r h; simp [parseChars] at h
  | succ f ih =>
    intro cs s r h fuel1 hf
    obtain ⟨g, rfl⟩ : ∃ g, fuel1 = g + 1 := ⟨fuel1 - 1, by omega⟩
    have hfg : f ≤ g := by omega
    cases cs with
    | nil => simp [parseChars] at h
    | cons c cs =>
      rw [List.cons_append]
      simp only [parseChars] at h ⊢
      by_cases h1 : c = '"'
      · rw [if_pos h1] at h ⊢
        simp only [Option.some.injEq, Prod.mk.injEq] at h ⊢
        exact ⟨h.1, by rw [h.2]⟩
      · rw [if_neg h1] at h ⊢
        by_cases h2 : c = '\\'
        · rw [if_pos h2] at h ⊢
          cases cs with
          | nil => simp at h
          | cons e cs1 =>
            simp only [List.cons_append] at h ⊢
            by_cases h3 : e = 'u'
            · rw [if_pos h3] at h ⊢
              cases hh : hex4 cs1 with
              | none => rw [hh] at h; simp at h
              | some y =>
                obtain ⟨n, cs2⟩ := y
                rw [hh] at h
                rw [hex4_append cs1 ext n cs2 hh]
                simp only at h ⊢
                obtain ⟨s1, hs1, hs⟩ := pushChar_eq_some _ _ _ _ h
                rw [decodeU_append f n cs2 ext _ hs1]
                simp only
                rw [ih _ _ _ hs1 g hfg, hs]
                rfl
            · rw [if_neg h3] at h ⊢
              cases hu : unescape e with
              | none => rw [hu] at h; simp at h
              | some ch =>
                rw [hu] at h
                simp only at h ⊢
                obtain ⟨s1, hs1, hs⟩ := pushChar_eq_some _ _ _ _ h
                rw [ih _ _ _ hs1 g hfg, hs]
                rfl
        · rw [if_neg h2] at h ⊢
          by_cases h4 : c.toNat < 32
          · rw [if_pos h4] at h
            simp at h
          · rw [if_neg h4] at h ⊢
            obtain ⟨s1, hs1, hs⟩ := pushChar_eq_some _ _ _ _ h
            rw [ih _ _ _ hs1 g hfg, hs]
            rfl

theorem parseString_append (ext cs s r : List Char) (h : parseString cs = some (s, r)) :
    parseString (cs ++ ext) = some (s, r ++ ext) := by
  unfold parseString at h ⊢
  exact parseChars_append ext cs.length cs s r h _ (by simp)

theorem spanDigits_append_rest (cs ext : List Char) (h : (spanDigits cs).2 ≠ []) :
    spanDigits (cs ++ ext) = ((spanDigits cs).1, (spanDigits cs).2 ++ ext) := by
  induction cs with
  | nil => exact absurd rfl h
  | cons c cs ih =>
    rw [List.cons_append]
    rw [spanDigits] at h ⊢
    rw [spanDigits]
    by_cases hc : isDigit c = true
    · simp only [if_pos hc] at h ⊢
      rw [ih h]
    · simp only [if_neg hc]
      rfl

theorem spanDigits_append_eq (cs ext ds r : List Char) (h : spanDigits cs = (ds, r))
    (hr : r ≠ []) : spanDigits (cs ++ ext) = (ds, r ++ ext) := by
  have h2 : (spanDigits cs).2 ≠ [] := by rw [h]; exact hr
  rw [spanDigits_append_rest cs ext h2, h]

theorem scanIntPart_append (cs ext ip r : List Char) (h : scanIntPart cs = some (ip, r))
    (hr : r ≠ []) : scanIntPart (cs ++ ext) = some (ip, r ++ ext) := by
  cases cs with
  | nil => simp [scanIntPart] at h
  | cons c cs =>
    rw [List.cons_append]
    simp only [scanIntPart] at h ⊢
    by_cases h0 : c = '0'
    · rw [if_pos h0] at h ⊢
      simp only [Option.some.injEq, Prod.mk.injEq] at h ⊢
      exact ⟨h.1, by rw [h.2]⟩
    · rw [if_neg h0] at h ⊢
      by_cases hd : isDigit c = true
      · rw [if_pos hd] at h ⊢
        simp only [Option.some.injEq, Prod.mk.injEq] at h ⊢
        have h2 : (spanDigits cs).2 ≠ [] := by rw [h.2]; exact hr
        rw [spanDigits_append_rest cs ext h2]
        exact ⟨h.1, by rw [h.2]⟩
      · rw [if_neg hd] at h
        simp at h

theorem scanFrac_append (cs ext fp r : List Char) (h : scanFrac cs = some (fp, r))
    (hr : r ≠ []) : scanFrac (cs ++ ext) = some (fp, r ++ ext) := by
  cases cs with
  | nil =>
    simp only [scanFrac, Option.some.injEq, Prod.mk.injEq] at h
    exact absurd h.2.symm hr
  | cons c cs =>
    rw [List.cons_append]
    simp only [scanFrac] at h ⊢
    by_cases hc : c = '.'
    · rw [if_pos hc] at h ⊢
      cases hsp : spanDigits cs with
      | mk ds rest =>
        rw [hsp] at h
        cases ds with
        | nil => simp at h
        | cons d ds =>
          simp only [Option.some.injEq, Prod.mk.injEq] at h
          rw [spanDigits_append_eq cs ext (d :: ds) rest hsp (by rw [h.2]; exact hr)]
          simp only [Option.some.injEq, Prod.mk.injEq]
          exact ⟨h.1, by rw [h.2]⟩
    · rw [if_neg hc] at h ⊢
      simp only [Option.some.injEq, Prod.mk.injEq] at h ⊢
      exact ⟨h.1, by rw [← h.2]; rfl⟩

theorem scanExpDigits_append (pre cs ext ep r : List Char)
    (h : scanExpDigits pre cs = some (ep, r)) (hr : r ≠ []) :
    scanExpDigits pre (cs ++ ext) = some (ep, r ++ ext) := by
  unfold scanExpDigits at h ⊢
  cases hsp : spanDigits cs with
  | mk ds rest =>
    rw [hsp] at h
    cases ds with
    | nil => simp at h
    | cons d ds =>
      simp only [Option.some.injEq, Prod.mk.injEq] at h
      rw [spanDigits_append_eq cs ext (d :: ds) rest hsp (by rw [h.2]; exact hr)]
      simp only [Option.some.injEq, Prod.mk.injEq]
      exact ⟨h.1, by rw [h.2]⟩

theorem scanExp_append (cs ext ep r : List Char) (h : scanExp cs = some (ep, r))
    (hr : r ≠ []) : scanExp (cs ++ ext) = some (ep, r ++ ext) := by
  cases cs with
  | nil =>
    simp only [scanExp, Option.some.injEq, Prod.mk.injEq] at h
    exact absurd h.2.symm hr
  | cons c cs =>
    rw [List.cons_append]
    simp only [scanExp] at h ⊢
    by_cases hc : c = 'e' ∨ c = 'E'
    · rw [if_pos hc] at h ⊢
      cases cs with
      | nil => simp at h
      | cons x cs1 =>
        simp only [List.cons_append] at h ⊢
        by_cases hx : x = '+' ∨ x = '-'
        · rw [if_pos hx] at h ⊢
          exact scanExpDigits_append _ cs1 ext ep r h hr
        · rw [if_neg hx] at h ⊢
          exact scanExpDigits_append _ (x :: cs1) ext ep r h hr
    · rw [if_neg hc] at h ⊢
      simp only [Option.some.injEq, Prod.mk.injEq] at h ⊢
      exact ⟨h.1, by rw [← h.2]; rfl⟩

theorem scanFrac_rest (cs fp r : List Char) (h : scanFrac cs = some (fp, r)) (hr : r ≠ []) :
    cs ≠ [] := by
  intro hcs
  subst hcs
  simp only [scanFrac, Option.some.injEq, Prod.mk.injEq] at h
  exact hr h.2.symm

theorem scanExp_rest (cs ep r : List Char) (h : scanExp cs = some (ep, r)) (hr : r ≠ []) :
    cs ≠ [] := by
  intro hcs
  subst hcs
  simp only [scanExp, Option.some.injEq, Prod.mk.injEq] at h
  exact hr h.2.symm

theorem scanUnsigned_append (cs ext lit r : List Char) (h : scanUnsigned cs = some (lit, r))
    (hr : r ≠ []) : scanUnsigned (cs ++ ext) = some (lit, r ++ ext) := by
  unfold scanUnsigned at h ⊢
  cases h1 : scanIntPart cs with
  | none => rw [h1] at h; simp at h
  | some y1 =>
    obtain ⟨ip, r1⟩ := y1
    rw [h1] at h
    simp only at h
    cases h2 : scanFrac r1 with
    | none => rw [h2] at h; simp at h
    | some y2 =>
      obtain ⟨fp, r2⟩ := y2
      rw [h2] at h
      simp only at h
      cases h3 : scanExp r2 with
      | none => rw [h3] at h; simp at h
      | some y3 =>
        obtain ⟨ep, r3⟩ := y3
        rw [h3] at h
        simp only [Option.some.injEq, Prod.mk.injEq] at h
        have hr3 : r3 ≠ [] := by rw [h.2]; exact hr
        have hr2 : r2 ≠ [] := scanExp_rest r2 ep r3 h3 hr3
        have hr1 : r1 ≠ [] := scanFrac_rest r1 fp r2 h2 hr2
        rw [scanIntPart_append cs ext ip r1 h1 hr1]
        simp only
        rw [scanFrac_append r1 ext fp r2 h2 hr2]
        simp only
        rw [scanExp_append r2 ext ep r3 h3 hr3]
        simp only [Option.some.injEq, Prod.mk.injEq]
        exact ⟨h.1, by rw [h.2]⟩

theorem scanNumber_append (cs ext lit r : List Char) (h : scanNumber cs = some (lit, r))
    (hr : r ≠ []) : scanNumber (cs ++ ext) = some (lit, r ++ ext) := by
  cases cs with
  | nil => simp [scanNumber] at h
  | cons c cs =>
    rw [List.cons_append]
    simp only [scanNumber] at h ⊢
    by_cases hc : c = '-'
    · rw [if_pos hc] at h ⊢
      cases hu : scanUnsigned cs with
      | none => rw [hu] at h; simp at h
      | some y =>
        obtain ⟨l1, r1⟩ := y
        rw [hu] at h
        simp only [Option.some.injEq, Prod.mk.injEq] at h
        rw [scanUnsigned_append cs ext l1 r1 hu (by rw [h.2]; exact hr)]
        simp only [Option.some.injEq, Prod.mk.injEq]
        exact ⟨h.1, by rw [h.2]⟩
    · rw [if_neg hc] at h ⊢
      exact scanUnsigned_append (c :: cs) ext lit r h hr

theorem dropLit_append (lit cs ext r : List Char) (h : dropLit lit cs = some r) :
    dropLit lit (cs ++ ext) = some (r ++ ext) := by
  induction lit generalizing cs with
  | nil =>
    simp only [dropLit, Option.some.injEq] at h ⊢
    rw [h]
  | cons l ls ih =>
    cases cs with
    | nil => simp [dropLit] at h
    | cons c cs =>
      rw [List.cons_append]
      simp only [dropLit] at h ⊢
      by_cases hl : l = c
      · rw [if_pos hl] at h ⊢
        exact ih cs h
      · rw [if_neg hl] at h
        simp at h

theorem parseValue_nil (fuel depth : Nat) : parseValue fuel depth [] = none := by
  cases fuel <;> simp [parseValue]

theorem parseElems_nil (fuel depth : Nat) : parseElems fuel depth [] = none := by
  cases fuel with
  | zero => simp [parseElems]
  | succ f => simp [parseElems, parseValue_nil]

theorem parseMembers_nil (fuel depth : Nat) : parseMembers fuel depth [] = none := by
  cases fuel <;> simp [parseMembers]

theorem ne_nil_of_skipSpace (cs : List Char) (d : Char) (r : List Char)
    (h : skipSpace cs = d :: r) : cs ≠ [] := by
  intro hcs
  subst hcs
  simp [skipSpace] at h

theorem parseValue_stable_step (ext : List Char) (f : Nat)
    (ihE : ElemsStable ext f) (ihM : MembersStable ext f) : ValueStable ext (f + 1) := by
  intro depth cs v r h hcond fuel1 hf
  obtain ⟨g, rfl⟩ : ∃ g, fuel1 = g + 1 := ⟨fuel1 - 1, by omega⟩
  have hfg : f ≤ g := by omega
  cases cs with
  | nil => simp [parseValue] at h
  | cons c cs =>
    rw [List.cons_append]
    simp only [parseValue] at h ⊢
    by_cases h1 : c = '{'
    · rw [if_pos h1] at h ⊢
      by_cases hdep : maxNestingDepth ≤ depth
      · rw [if_pos hdep] at h
        simp at h
      · rw [if_neg hdep] at h ⊢
        cases hs : skipSpace cs with
        | nil => rw [hs] at h; simp at h
        | cons d cs1 =>
          rw [hs] at h
          rw [skipSpace_append_cons cs ext d cs1 hs]
          simp only at h ⊢
          by_cases hd : d = '}'
          · rw [if_pos hd] at h ⊢
            simp only [Option.some.injEq, Prod.mk.injEq] at h ⊢
            exact ⟨h.1, by rw [h.2]⟩
          · rw [if_neg hd] at h ⊢
            cases hm : parseMembers f (depth + 1) (d :: cs1) with
            | none => rw [hm] at h; simp at h
            | some y =>
              obtain ⟨kvs, rest⟩ := y
              rw [hm] at h
              have hrec := ihM (depth + 1) (d :: cs1) kvs rest hm g hfg
              rw [List.cons_append] at hrec
              rw [hrec]
              simp only [Option.some.injEq, Prod.mk.injEq] at h ⊢
              exact ⟨h.1, by rw [h.2]⟩
    · rw [if_neg h1] at h ⊢
      by_cases h2 : c = '['
      · rw [if_pos h2] at h ⊢
        by_cases hdep : maxNestingDepth ≤ depth
        · rw [if_pos hdep] at h
          simp at h
        · rw [if_neg hdep] at h ⊢
          cases hs : skipSpace cs with
          | nil => rw [hs] at h; simp at h
          | cons d cs1 =>
            rw [hs] at h
            rw [skipSpace_append_cons cs ext d cs1 hs]
            simp only at h ⊢
            by_cases hd : d = ']'
            · rw [if_pos hd] at h ⊢
              simp only [Option.some.injEq, Prod.mk.injEq] at h ⊢
              exact ⟨h.1, by rw [h.2]⟩
            · rw [if_neg hd] at h ⊢
              cases hm : parseElems f (depth + 1) (d :: cs1) with
              | none => rw [hm] at h; simp at h
              | some y =>
                obtain ⟨xs, rest⟩ := y
                rw [hm] at h
                have hrec := ihE (depth + 1) (d :: cs1) xs rest hm g hfg
                rw [List.cons_append] at hrec
                rw [hrec]
                simp only [Option.some.injEq, Prod.mk.injEq] at h ⊢
                exact ⟨h.1, by rw [h.2]⟩
      · rw [if_neg h2] at h ⊢
        by_cases h3 : c = '"'
        · rw [if_pos h3] at h ⊢
          cases hp : parseString cs with
          | none => rw [hp] at h; simp at h
          | some y =>
            obtain ⟨str, rest⟩ := y
            rw [hp] at h
            rw [parseString_append ext cs str rest hp]
            simp only [Option.some.injEq, Prod.mk.injEq] at h ⊢
            exact ⟨h.1, by rw [h.2]⟩
        · rw [if_neg h3] at h ⊢
          by_cases h4 : c = 't'
          · rw [if_pos h4] at h ⊢
            cases hl : dropLit ['r', 'u', 'e'] cs with
            | none => rw [hl] at h; simp at h
            | some rest =>
              rw [hl] at h
              rw [dropLit_append _ cs ext rest hl]
              simp only [Option.map_some', Option.some.injEq, Prod.mk.injEq] at h ⊢
              exact ⟨h.1, by rw [h.2]⟩
          · rw [if_neg h4] at h ⊢
            by_cases h5 : c = 'f'
            · rw [if_pos h5] at h ⊢
              cases hl : dropLit ['a', 'l', 's', 'e'] cs with
              | none => rw [hl] at h; simp at h
              | some rest =>
                rw [hl] at h
                rw [dropLit_append _ cs ext rest hl]
                simp only [Option.map_some', Option.some.injEq, Prod.mk.injEq] at h ⊢
                exact ⟨h.1, by rw [h.2]⟩
            · rw [if_neg h5] at h ⊢
              by_cases h6 : c = 'n'
              · rw [if_pos h6] at h ⊢
                cases hl : dropLit ['u', 'l', 'l'] cs with
                | none => rw [hl] at h; simp at h
                | some rest =>
                  rw [hl] at h
                  rw [dropLit_append _ cs ext rest hl]
                  simp only [Option.map_some', Option.some.injEq, Prod.mk.injEq] at h ⊢
                  exact ⟨h.1, by rw [h.2]⟩
              · rw [if_neg h6] at h ⊢
                cases hn : scanNumber (c :: cs) with
                | none => rw [hn] at h; simp at h
                | some y =>
                  obtain ⟨lit, rest⟩ := y
                  rw [hn] at h
                  simp only [Option.some.injEq, Prod.mk.injEq] at h
                  have hrest : rest ≠ [] := by
                    rcases hcond with hr | hv
                    · rw [h.2]; exact hr
                    · rw [← h.1] at hv
                      exact absurd hv (by simp [notNum])
                  have hrec := scanNumber_append (c :: cs) ext lit rest hn hrest
                  rw [List.cons_append] at hrec
                  rw [hrec]
                  simp only [Option.some.injEq, Prod.mk.injEq]
                  exact ⟨h.1, by rw [h.2]⟩

theorem parseElems_stable_step (ext : List Char) (f : Nat)
    (ihV : ValueStable ext f) (ihE : ElemsStable ext f) : ElemsStable ext (f + 1) := by
  intro depth cs vs r h fuel1 hf
  obtain ⟨g, rfl⟩ : ∃ g, fuel1 = g + 1 := ⟨fuel1 - 1, by omega⟩
  have hfg : f ≤ g := by omega
  simp only [parseElems] at h ⊢
  cases hv : parseValue f depth cs with
  | none => rw [hv] at h; simp at h
  | some y =>
    obtain ⟨v, cs1⟩ := y
    rw [hv] at h
    simp only at h
    cases hs : skipSpace cs1 with
    | nil => rw [hs] at h; simp at h
    | cons d cs2 =>
      rw [hs] at h
      simp only at h
      have hne : cs1 ≠ [] := ne_nil_of_skipSpace cs1 d cs2 hs
      rw [ihV depth cs v cs1 hv (Or.inl hne) g hfg]
      simp only
      rw [skipSpace_append_cons cs1 ext d cs2 hs]
      simp only
      by_cases hd : d = ']'
      · rw [if_pos hd] at h ⊢
        simp only [Option.some.injEq, Prod.mk.injEq] at h ⊢
        exact ⟨h.1, by rw [h.2]⟩
      · rw [if_neg hd] at h ⊢
        by_cases hc : d = ','
        · rw [if_pos hc] at h ⊢
          cases he : parseElems f depth (skipSpace cs2) with
          | none => rw [he] at h; simp at h
          | some z =>
            obtain ⟨ws, rest⟩ := z
            rw [he] at h
            have hsk : skipSpace cs2 ≠ [] := by
              intro hnil
              rw [hnil, parseElems_nil] at he
              simp at he
            rw [skipSpace_append cs2 ext hsk, ihE depth (skipSpace cs2) ws rest he g hfg]
            simp only [Option.some.injEq, Prod.mk.injEq] at h ⊢
            exact ⟨h.1, by rw [h.2]⟩
        · rw [if_neg hc] at h
          simp at h

theorem parseMembers_stable_step (ext : List Char) (f : Nat)
    (ihV : ValueStable ext f) (ihM : MembersStable ext f) : MembersStable ext (f + 1) := by
  intro depth cs kvs r h fuel1 hf
  obtain ⟨g, rfl⟩ : ∃ g, fuel1 = g + 1 := ⟨fuel1 - 1, by omega⟩
  have hfg : f ≤ g := by omega
  cases cs with
  | nil => simp [parseMembers] at h
  | cons q cs =>
    rw [List.cons_append]
    simp only [parseMembers] at h ⊢
    by_cases hq : q = '"'
    · rw [if_pos hq] at h ⊢
      cases hp : parseString cs with
      | none => rw [hp] at h; simp at h
      | some y =>
        obtain ⟨key, cs1⟩ := y
        rw [hp] at h
        rw [parseString_append ext cs key cs1 hp]
        simp only at h ⊢
        cases hs : skipSpace cs1 with
        | nil => rw [hs] at h; simp at h
        | cons col cs2 =>
          rw [hs] at h
          rw [skipSpace_append_cons cs1 ext col cs2 hs]
          simp only at h ⊢
          by_cases hcol : col = ':'
          · rw [if_pos hcol] at h ⊢
            cases hv : parseValue f depth (skipSpace cs2) with
            | none => rw [hv] at h; simp at h
            | some z =>
              obtain ⟨v, cs3⟩ := z
              rw [hv] at h
              simp only at h
              have hsk : skipSpace cs2 ≠ [] := by
                intro hnil
                rw [hnil, parseValue_nil] at hv
                simp at hv
              cases hs3 : skipSpace cs3 with
              | nil => rw [hs3] at h; simp at h
              | cons d cs4 =>
                rw [hs3] at h
                simp only at h
                have hne : cs3 ≠ [] := ne_nil_of_skipSpace cs3 d cs4 hs3
                rw [skipSpace_append cs2 ext hsk,
                  ihV depth (skipSpace cs2) v cs3 hv (Or.inl hne) g hfg]
                simp only
                rw [skipSpace_append_cons cs3 ext d cs4 hs3]
                simp only
                by_cases hd : d = '}'
                · rw [if_pos hd] at h ⊢
                  simp only [Option.some.injEq, Prod.mk.injEq] at h ⊢
                  exact ⟨h.1, by rw [h.2]⟩
                · rw [if_neg hd] at h ⊢
                  by_cases hc : d = ','
                  · rw [if_pos hc] at h ⊢
                    cases hm : parseMembers f depth (skipSpace cs4) with
                    | none => rw [hm] at h; simp at h
                    | some t =>
                      obtain ⟨more, rest⟩ := t
                      rw [hm] at h
                      have hsk4 : skipSpace cs4 ≠ [] := by
                        intro hnil
                        rw [hnil, parseMembers_nil] at hm
                        simp at hm
                      rw [skipSpace_append cs4 ext hsk4,
                        ihM depth (skipSpace cs4) more rest hm g hfg]
                      simp only [Option.some.injEq, Prod.mk.injEq] at h ⊢
                      exact ⟨h.1, by rw [h.2]⟩
                  · rw [if_neg hc] at h
                    simp at h
          · rw [if_neg hcol] at h
            simp at h
    · rw [if_neg hq] at h
      simp at h

/-- Parsing is stable under more fuel and a longer text. -/
theorem parse_stable (ext : List Char) :
    ∀ fuel, ValueStable ext fuel ∧ ElemsStable ext fuel ∧ MembersStable ext fuel := by
  intro fuel
  induction fuel with
  | zero =>
    refine ⟨?_, ?_, ?_⟩
    · intro depth cs v r h; simp [parseValue] at h
    · intro depth cs vs r h; simp [parseElems] at h
    · intro depth cs kvs r h; simp [parseMembers] at h
  | succ f ih =>
    exact ⟨parseValue_stable_step ext f ih.2.1 ih.2.2,
      parseElems_stable_step ext f ih.1 ih.2.1,
      parseMembers_stable_step ext f ih.1 ih.2.2⟩

theorem parseValue_bracket_notNum (fuel depth : Nat) (cs : List Char) (v : Value)
    (r : List Char) (h : parseValue fuel depth ('[' :: cs) = some (v, r)) : notNum v := by
  cases fuel with
  | zero => simp [parseValue] at h
  | succ f =>
    have hb : ('[' : Char) ≠ '{' := by decide
    simp only [parseValue, if_neg hb, if_true] at h
    by_cases hdep : maxNestingDepth ≤ depth
    · rw [if_pos hdep] at h
      simp at h
    · rw [if_neg hdep] at h
      cases hs : skipSpace cs with
      | nil => rw [hs] at h; simp at h
      | cons d cs1 =>
        rw [hs] at h
        simp only at h
        by_cases hd : d = ']'
        · rw [if_pos hd] at h
          simp only [Option.some.injEq, Prod.mk.injEq] at h
          rw [← h.1]; trivial
        · rw [if_neg hd] at h
          cases hm : parseElems f (depth + 1) (d :: cs1) with
          | none => rw [hm] at h; simp at h
          | some y =>
            rw [hm] at h
            simp only [Option.some.injEq, Prod.mk.injEq] at h
            rw [← h.1]; trivial

/-- A cut copy of the encoding of a sequence of records, neither empty nor
whole, is not valid JSON. -/
theorem parseJson_cut (us : List User) (n : Nat) (h0 : 0 < n)
    (hn : n < (encodeUsers us).length) : parseJson ((encodeUsers us).take n) = none := by
  have hfull := parseJson_encodeUsers us
  have hsplit : (encodeUsers us).take n ++ (encodeUsers us).drop n = encodeUsers us :=
    List.take_append_drop n _
  have hext : ']' ∈ (encodeUsers us).drop n := by
    have hlen : n ≤ ('[' :: encodeElems us).length := by
      simp only [encodeUsers, List.length_cons, List.length_append, List.length_nil] at hn ⊢
      omega
    have : encodeUsers us = ('[' :: encodeElems us) ++ [']'] := rfl
    rw [this, List.drop_append_of_le_length hlen]
    simp
  obtain ⟨p1, hp1⟩ : ∃ p1, (encodeUsers us).take n = '[' :: p1 := by
    cases n with
    | zero => omega
    | succ m => exact ⟨_, rfl⟩
  have hskp : skipSpace ((encodeUsers us).take n) = (encodeUsers us).take n := by
    rw [hp1]; exact skipSpace_cons _ _ (by decide)
  have hskt : skipSpace (encodeUsers us) = encodeUsers us := skipSpace_cons _ _ (by decide)
  cases hcut : parseJson ((encodeUsers us).take n) with
  | none => rfl
  | some v0 =>
    exfalso
    unfold parseJson at hcut hfull
    rw [hskp] at hcut
    rw [hskt] at hfull
    cases hv : parseValue (2 * ((encodeUsers us).take n).length + 2) 0
        ((encodeUsers us).take n) with
    | none => rw [hv] at hcut; simp at hcut
    | some y =>
      obtain ⟨v, rest⟩ := y
      have hnot : notNum v := by
        rw [hp1] at hv
        exact parseValue_bracket_notNum _ _ _ _ _ hv
      have hle : 2 * ((encodeUsers us).take n).length + 2 ≤ 2 * (encodeUsers us).length + 2 := by
        have := List.length_take_le n (encodeUsers us)
        omega
      have hst := (parse_stable ((encodeUsers us).drop n) _).1 0 _ v rest hv (Or.inr hnot) _ hle
      rw [hsplit] at hst
      rw [hst] at hfull
      simp only at hfull
      by_cases hsp : skipSpace (rest ++ (encodeUsers us).drop n) = []
      · have hall := skipSpace_eq_nil _ hsp ']' (List.mem_append_right _ hext)
        exact absurd hall (by decide)
      · rw [if_neg hsp] at hfull
        simp at hfull

theorem unmarshalUsers_cut (us : List User) (n : Nat) (h0 : 0 < n)
    (hn : n < (encodeUsers us).length) : unmarshalUsers ((encodeUsers us).take n) = none := by
  unfold unmarshalUsers
  rw [parseJson_cut us n h0 hn]

end Json

end Store

namespace Store

/-! ## The invariant of the store -/

theorem getUsersFromFile_congr (fileName : String) (w w1 : World)
    (h : w1.files fileName = w.files fileName) :
    getUsersFromFile fileName w1 = getUsersFromFile fileName w := by
  unfold getUsersFromFile readFile
  rw [h]

theorem getUsersFromFile_empty (fileName : String) (w : World)
    (h : w.files fileName = File.absent ∨ w.files fileName = File.content "") :
    getUsersFromFile fileName w = Except.ok [] := by
  unfold getUsersFromFile readFile
  rcases h with h | h <;> rw [h]
  rfl

theorem uniqueIds_append (s : List User) (r : User) (hs : uniqueIds s)
    (hnew : ∀ v ∈ s, v.ID ≠ r.ID) : uniqueIds (s ++ [r]) := by
  unfold uniqueIds at hs ⊢
  rw [List.map_append, List.nodup_append]
  refine ⟨hs, by simp, ?_⟩
  intro a ha hb
  simp only [List.map_cons, List.map_nil, List.mem_singleton] at hb
  obtain ⟨v, hv, hva⟩ := List.mem_map.mp ha
  exact hnew v hv (by rw [hva, hb])

theorem uniqueIds_filter (s : List User) (p : User → Bool) (hs : uniqueIds s) :
    uniqueIds (s.filter p) := by
  unfold uniqueIds at hs ⊢
  exact List.Nodup.sublist ((List.filter_sublist s).map User.ID) hs

theorem addNewUser_malformed_world (w : World) (fileName item : String) (writer : Writer)
    (hitem : Json.unmarshalUser item.data = none) :
    (addNewUser item fileName writer w).world = w := by
  unfold addNewUser
  rw [hitem]

theorem listUsers_world (fileName : String) (writer : Writer) (w : World) :
    (listUsers fileName writer w).world = w := by
  unfold listUsers
  split
  · rfl
  · split_ifs <;> rfl

theorem findUser_world (id fileName : String) (writer : Writer) (w : World) :
    (findUser id fileName writer w).world = w := by
  unfold findUser
  split
  · rfl
  · split <;> rfl

theorem putUsersToFile_writeErr (users : List User) (target : String) (w : World) :
    (putUsersToFile users target w).2.writeErr = w.writeErr := by
  unfold putUsersToFile writeFile
  cases h : w.writeErr target with
  | none => rfl
  | some fl => cases fl <;> rfl

theorem putUsersToFile_files_other (users : List User) (fileName target : String) (w : World)
    (hne : fileName ≠ target) :
    (putUsersToFile users target w).2.files fileName = w.files fileName := by
  unfold putUsersToFile writeFile
  cases h : w.writeErr target with
  | none => simp only [if_neg hne]
  | some fl =>
    cases fl with
    | atOpen msg => rfl
    | afterOpen msg written => simp only [if_neg hne]

theorem putUsersToFile_files_atOpen (users : List User) (target msg : String) (w : World)
    (h : w.writeErr target = some (WriteFailure.atOpen msg)) :
    (putUsersToFile users target w).2.files = w.files := by
  unfold putUsersToFile writeFile
  rw [h]

theorem putUsersToFile_files_afterOpen (users : List User) (target msg : String)
    (written : Nat) (w : World)
    (h : w.writeErr target = some (WriteFailure.afterOpen msg written)) :
    (putUsersToFile users target w).2.files target
      = File.content (String.mk ((Json.encodeUsers users).take written)) := by
  unfold putUsersToFile writeFile
  rw [h]
  simp

/-- What loads from a cut copy of an encoding: nothing, or, when the copy is
whole, the encoded sequence. -/
theorem getUsersFromFile_cut (users : List User) (fileName : String) (written : Nat)
    (w : World) (s : List User) (hus : ∀ u ∈ users, u.valid)
    (hfile : w.files fileName
      = File.content (String.mk ((Json.encodeUsers users).take written)))
    (hload : getUsersFromFile fileName w = Except.ok s) : s = [] ∨ s = users := by
  unfold getUsersFromFile readFile at hload
  rw [hfile] at hload
  simp only at hload
  by_cases hlen : 0 < (String.mk ((Json.encodeUsers users).take written)).length
  · rw [if_pos hlen] at hload
    have hlen1 : 0 < ((Json.encodeUsers users).take written).length := hlen
    have hw0 : 0 < written := by
      rcases Nat.eq_zero_or_pos written with h | h
      · rw [h] at hlen1; simp at hlen1
      · exact h
    by_cases hfull : written < (Json.encodeUsers users).length
    · have hcut : Json.unmarshalUsers (String.mk ((Json.encodeUsers users).take written)).data
          = none := Json.unmarshalUsers_cut users written hw0 hfull
      rw [hcut] at hload
      simp at hload
    · have hall : (Json.encodeUsers users).take written = Json.encodeUsers users :=
        List.take_of_length_le (by omega)
      have hdec : Json.unmarshalUsers (String.mk ((Json.encodeUsers users).take written)).data
          = some users := by
        show Json.unmarshalUsers ((Json.encodeUsers users).take written) = some users
        rw [hall]
        exact Json.unmarshalUsers_encodeUsers users hus
      rw [hdec] at hload
      simp only [Except.ok.injEq] at hload
      exact Or.inr hload.symm
  · rw [if_neg hlen] at hload
    simp only [Except.ok.injEq] at hload
    exact Or.inl hload.symm

theorem distinctIds_of_uniqueStore (fileName : String) (w : World)
    (h : uniqueStore fileName w) : distinctIds fileName w := by
  obtain ⟨s, hs, hu⟩ := h
  intro t ht
  rw [hs] at ht
  simp only [Except.ok.injEq] at ht
  rw [← ht]; exact hu

theorem persistable_ok (target : String) (w : World) (users : List User)
    (hp : Persistable target w users) (hd : distinctIds target w) :
    (∀ u ∈ users, u.valid) ∧ uniqueIds users := by
  obtain ⟨t, ht, hcase⟩ := hp
  have hvalid := getUsersFromFile_valid target w t ht
  have huniq := hd t ht
  rcases hcase with ⟨r, hr, hfresh, hu⟩ | ⟨id, hu⟩
  · subst hu
    refine ⟨?_, uniqueIds_append t r huniq hfresh⟩
    intro u hu1
    rcases List.mem_append.mp hu1 with h | h
    · exact hvalid u h
    · rw [List.mem_singleton.mp h]; exact hr
  · subst hu
    exact ⟨fun u hu1 => hvalid u (List.mem_filter.mp hu1).1, uniqueIds_filter t _ huniq⟩

/-- One call of `putUsersToFile`, whatever its outcome, keeps the ids of the
store at `fileName` distinct. -/
theorem distinctIds_putUsersToFile (fileName target : String) (users : List User) (w : World)
    (hinv : distinctIds fileName w) (hp : Persistable target w users) :
    distinctIds fileName (putUsersToFile users target w).2 := by
  by_cases hft : fileName = target
  · subst hft
    obtain ⟨hvalid, huniq⟩ := persistable_ok fileName w users hp hinv
    intro s hs
    cases hw : w.writeErr fileName with
    | none =>
      have hput := (putUsersToFile_err users fileName w).mpr hw
      rw [getUsersFromFile_putUsersToFile users fileName w hvalid hput] at hs
      simp only [Except.ok.injEq] at hs
      rw [← hs]; exact huniq
    | some fl =>
      cases fl with
      | atOpen msg =>
        rw [getUsersFromFile_congr fileName w _
          (by rw [putUsersToFile_files_atOpen users fileName msg w hw])] at hs
        exact hinv s hs
      | afterOpen msg written =>
        have hfile := putUsersToFile_files_afterOpen users fileName msg written w hw
        rcases getUsersFromFile_cut users fileName written _ s hvalid hfile hs with h | h
        · rw [h]; exact List.nodup_nil
        · rw [h]; exact huniq
  · intro s hs
    rw [getUsersFromFile_congr fileName w _
      (putUsersToFile_files_other users fileName target w hft)] at hs
    exact hinv s hs

/-- Where no write leaves a cut file, one call of `putUsersToFile` keeps the
store decodable with distinct ids. -/
theorem uniqueStore_putUsersToFile (fileName target : String) (users : List User) (w : World)
    (hinv : uniqueStore fileName w) (hcut : noCut fileName w)
    (hp : Persistable target w users) :
    uniqueStore fileName (putUsersToFile users target w).2 := by
  by_cases hft : fileName = target
  · subst hft
    obtain ⟨hvalid, huniq⟩ :=
      persistable_ok fileName w users hp (distinctIds_of_uniqueStore fileName w hinv)
    cases hw : w.writeErr fileName with
    | none =>
      have hput := (putUsersToFile_err users fileName w).mpr hw
      exact ⟨users, getUsersFromFile_putUsersToFile users fileName w hvalid hput, huniq⟩
    | some fl =>
      cases fl with
      | atOpen msg =>
        obtain ⟨s, hs, hu⟩ := hinv
        refine ⟨s, ?_, hu⟩
        rw [getUsersFromFile_congr fileName w _
          (by rw [putUsersToFile_files_atOpen users fileName msg w hw])]
        exact hs
      | afterOpen msg written => exact absurd hw (hcut msg written)
  · obtain ⟨s, hs, hu⟩ := hinv
    refine ⟨s, ?_, hu⟩
    rw [getUsersFromFile_congr fileName w _
      (putUsersToFile_files_other users fileName target w hft)]
    exact hs

/-- What `addNewUser` does to the file system: nothing, or one call of
`putUsersToFile` whose error it returns. -/
theorem addNewUser_world_cases (item target : String) (writer : Writer) (w : World) :
    (addNewUser item target writer w).world = w ∨
    ∃ users, Persistable target w users ∧
      (addNewUser item target writer w).world = (putUsersToFile users target w).2 ∧
      (addNewUser item target writer w).err = (putUsersToFile users target w).1 := by
  cases hitem : Json.unmarshalUser item.data with
  | none => exact Or.inl (addNewUser_malformed_world w target item writer hitem)
  | some r =>
    cases hload : getUsersFromFile target w with
    | error e =>
      left
      unfold addNewUser
      simp only [hitem, hload]
    | ok t =>
      by_cases hdup : ∃ v ∈ t, v.ID = r.ID
      · left
        rw [addNewUser_existing w target item writer t r hload hitem hdup]
      · have hfresh : ∀ v ∈ t, v.ID ≠ r.ID := fun v hv hid => hdup ⟨v, hv, hid⟩
        right
        refine ⟨t ++ [r], ⟨t, hload, Or.inl ⟨r, Json.unmarshalUser_valid _ _ hitem, hfresh, rfl⟩⟩, ?_⟩
        rw [addNewUser_fresh w target item writer t r hload hitem hfresh]
        exact ⟨rfl, rfl⟩

/-- What `removeUser` does to the file system: nothing, or one call of
`putUsersToFile` whose error it returns. -/
theorem removeUser_world_cases (id target : String) (writer : Writer) (w : World) :
    (removeUser id target writer w).world = w ∨
    ∃ users, Persistable target w users ∧
      (removeUser id target writer w).world = (putUsersToFile users target w).2 ∧
      (removeUser id target writer w).err = (putUsersToFile users target w).1 := by
  cases hload : getUsersFromFile target w with
  | error e =>
    left
    unfold removeUser
    simp only [hload]
  | ok t =>
    by_cases hmem : ∃ v ∈ t, v.ID = id
    · right
      refine ⟨t.filter (fun v => v.ID != id), ⟨t, hload, Or.inr ⟨id, rfl⟩⟩, ?_⟩
      rw [removeUser_present w target id writer t hload hmem]
      exact ⟨rfl, rfl⟩
    · have hnone : ∀ v ∈ t, v.ID ≠ id := fun v hv hid => hmem ⟨v, hv, hid⟩
      left
      rw [removeUser_absent w target id writer t hload hnone]

/-- What a call of `Perform` does to the file system. -/
theorem Perform_world_cases (args : Arguments) (writer : Writer) (w : World) :
    (Perform args writer w).world = w ∨
    ∃ target users, Persistable target w users ∧
      (Perform args writer w).world = (putUsersToFile users target w).2 := by
  unfold Perform
  split
  · exact Or.inl rfl
  · split
    · exact Or.inl rfl
    · next fileName _ =>
      split_ifs
      · exact Or.inl (listUsers_world _ _ _)
      · split
        · exact Or.inl rfl
        · next item _ =>
          rcases addNewUser_world_cases item fileName writer w with h | ⟨users, hp, hw, _⟩
          · exact Or.inl h
          · exact Or.inr ⟨fileName, users, hp, hw⟩
      · split
        · exact Or.inl rfl
        · next id _ =>
          rcases removeUser_world_cases id fileName writer w with h | ⟨users, hp, hw, _⟩
          · exact Or.inl h
          · exact Or.inr ⟨fileName, users, hp, hw⟩
      · split
        · exact Or.inl rfl
        · exact Or.inl (findUser_world _ _ _ _)
      · exact Or.inl rfl

theorem distinctIds_Perform (fileName : String) (args : Arguments) (writer : Writer)
    (w : World) (hinv : distinctIds fileName w) :
    distinctIds fileName (Perform args writer w).world := by
  rcases Perform_world_cases args writer w with h | ⟨target, users, hp, h⟩
  · rw [h]; exact hinv
  · rw [h]; exact distinctIds_putUsersToFile fileName target users w hinv hp

theorem noCut_Perform (fileName : String) (args : Arguments) (writer : Writer)
    (w : World) (hcut : noCut fileName w) : noCut fileName (Perform args writer w).world := by
  rcases Perform_world_cases args writer w with h | ⟨target, users, _, h⟩
  · rw [h]; exact hcut
  · rw [h]
    intro msg written
    rw [putUsersToFile_writeErr]
    exact hcut msg written

theorem uniqueStore_Perform (fileName : String) (args : Arguments) (writer : Writer)
    (w : World) (hinv : uniqueStore fileName w) (hcut : noCut fileName w) :
    uniqueStore fileName (Perform args writer w).world := by
  rcases Perform_world_cases args writer w with h | ⟨target, users, hp, h⟩
  · rw [h]; exact hinv
  · rw [h]; exact uniqueStore_putUsersToFile fileName target users w hinv hcut hp

theorem distinctIds_performAll (fileName : String) (calls : List (Arguments × Writer)) :
    ∀ w, distinctIds fileName w → distinctIds fileName (performAll calls w) := by
  induction calls with
  | nil => intro w h; exact h
  | cons call calls ih =>
    intro w h
    exact ih _ (distinctIds_Perform fileName call.1 call.2 w h)

theorem uniqueStore_performAll (fileName : String) (calls : List (Arguments × Writer)) :
    ∀ w, uniqueStore fileName w → noCut fileName w →
      uniqueStore fileName (performAll calls w) := by
  induction calls with
  | nil => intro w h _; exact h
  | cons call calls ih =>
    intro w h hcut
    exact ih _ (uniqueStore_Perform fileName call.1 call.2 w h hcut)
      (noCut_Perform fileName call.1 call.2 w hcut)

/-- A call that changed the file system through a successful `putUsersToFile`
leaves a store that decodes with distinct ids. -/
theorem uniqueStore_of_put_ok (fileName : String) (users : List User) (w : World)
    (hinv : uniqueStore fileName w) (hp : Persistable fileName w users)
    (hok : (putUsersToFile users fileName w).1 = none) :
    uniqueStore fileName (putUsersToFile users fileName w).2 := by
  obtain ⟨hvalid, huniq⟩ :=
    persistable_ok fileName w users hp (distinctIds_of_uniqueStore fileName w hinv)
  exact ⟨users, getUsersFromFile_putUsersToFile users fileName w hvalid hok, huniq⟩

/-- A write that fails after the open leaves a cut file: here the first ten
characters of the encoding, which do not decode. -/
theorem fullDisk_leaves_cut_file :
    (addNewUser aliceItem "users.json" [] fullDisk).err
      = some (Err.os "no space left on device") ∧
    (addNewUser aliceItem "users.json" [] fullDisk).world.files "users.json"
      = File.content "[\x7b\"id\":\"1\"" ∧
    getUsersFromFile "users.json" (addNewUser aliceItem "users.json" [] fullDisk).world
      = Except.error Err.json :=
  ⟨by decide, by decide, by rfl⟩

/-- C17. Unique ids are an invariant of the operations. If the store decodes
and no two of its records share an id, the same holds of the store that a
successful `add`, `remove`, `list` or `findById` leaves. Hence, for a path that
starts absent or empty, after any sequence of calls of `Perform`, whatever
their arguments and outcomes, no two records of the store share an id: what the
store decodes to has distinct ids (a file that a failed write left cut does not
decode and holds no records), and where no write leaves a cut file the store
does decode. -/
theorem ids_stay_unique (w : World) (fileName : String) :
    (uniqueStore fileName w → ∀ (item id : String) (writer : Writer),
      ((addNewUser item fileName writer w).err = none →
        uniqueStore fileName (addNewUser item fileName writer w).world) ∧
      ((removeUser id fileName writer w).err = none →
        uniqueStore fileName (removeUser id fileName writer w).world) ∧
      ((listUsers fileName writer w).err = none →
        uniqueStore fileName (listUsers fileName writer w).world) ∧
      ((findUser id fileName writer w).err = none →
        uniqueStore fileName (findUser id fileName writer w).world)) ∧
    ((w.files fileName = File.absent ∨ w.files fileName = File.content "") →
      ∀ calls : List (Arguments × Writer),
        distinctIds fileName (performAll calls w) ∧
        (noCut fileName w → uniqueStore fileName (performAll calls w))) := by
  constructor
  · intro hinv item id writer
    refine ⟨?_, ?_, ?_, ?_⟩
    · intro hok
      rcases addNewUser_world_cases item fileName writer w with h | ⟨users, hp, hw, he⟩
      · rw [h]; exact hinv
      · rw [hw]
        exact uniqueStore_of_put_ok fileName users w hinv hp (by rw [← he]; exact hok)
    · intro hok
      rcases removeUser_world_cases id fileName writer w with h | ⟨users, hp, hw, he⟩
      · rw [h]; exact hinv
      · rw [hw]
        exact uniqueStore_of_put_ok fileName users w hinv hp (by rw [← he]; exact hok)
    · intro _
      rw [listUsers_world]; exact hinv
    · intro _
      rw [findUser_world]; exact hinv
  · intro hstart calls
    have h0 : uniqueStore fileName w :=
      ⟨[], getUsersFromFile_empty fileName w hstart, List.nodup_nil⟩
    exact ⟨distinctIds_performAll fileName calls w (distinctIds_of_uniqueStore fileName w h0),
      fun hcut => uniqueStore_performAll fileName calls w h0 hcut⟩

theorem ids_stay_unique_witness :
    (uniqueStore "users.json" (addNewUser aliceItem "users.json" []
        (oneFile "users.json" bobStore)).world ∧
      uniqueStore "users.json" (removeUser "2" "users.json" []
        (oneFile "users.json" bobStore)).world ∧
      uniqueStore "users.json" (listUsers "users.json" [] (oneFile "users.json" bobStore)).world ∧
      uniqueStore "users.json" (findUser "2" "users.json" []
        (oneFile "users.json" bobStore)).world) ∧
    distinctIds "users.json" (performAll
      [(mkArgs "add" aliceItem "users.json" "", []), (mkArgs "list" "" "users.json" "", [])]
      fullDisk) ∧
    uniqueStore "users.json" (performAll
      [(mkArgs "add" aliceItem "users.json" "", []), (mkArgs "add" aliceItem "users.json" "", []),
        (mkArgs "remove" "" "users.json" "1", [])] emptyWorld) :=
  ⟨match (ids_stay_unique (oneFile "users.json" bobStore) "users.json").1
        ⟨[bob], by rfl, by decide⟩ aliceItem "2" [] with
    | ⟨h1, h2, h3, h4⟩ => ⟨h1 (by decide), h2 (by decide), h3 (by decide), h4 (by decide)⟩,
    ((ids_stay_unique fullDisk "users.json").2 (Or.inl (by decide)) _).1,
    ((ids_stay_unique emptyWorld "users.json").2 (Or.inl (by decide)) _).2
      (fun _ _ h => by cases h)⟩

/-- C18. The operations that only read leave the file system as it was, whatever
the file holds (nothing, an empty file, a store that decodes or one that does
not, a file that cannot be read) and whatever the id: `list` and `findById`
issue no write, leave the content of the file unchanged, and do not create a
file that was absent. -/
theorem read_only_operations (w : World) (fileName id : String) (writer : Writer) :
    (listUsers fileName writer w).world = w ∧
    (findUser id fileName writer w).world = w ∧
    (listUsers fileName writer w).world.files fileName = w.files fileName ∧
    (findUser id fileName writer w).world.files fileName = w.files fileName ∧
    (listUsers fileName writer w).world.writes = w.writes ∧
    (findUser id fileName writer w).world.writes = w.writes := by
  rw [listUsers_world, findUser_world]
  exact ⟨rfl, rfl, rfl, rfl, rfl, rfl⟩

/-- C19, as amended. A record with the empty id can be stored but not
addressed. `Perform` accepts the `add` of `{"email":"a@b.com","age":1}` and
persists the record with the empty string as id. And every call of `Perform`
that names a store (`fileName` present and not empty), with operation
`findById` or `remove` and the empty id, returns the error
`-id flag has to be specified`, writes nothing and leaves the file system as it
was, whatever the file holds (it is not read). -/
theorem empty_id_unaddressable (args : Arguments) (writer : Writer) (w : World)
    (operation fileName : String)
    (hop : args operationFlag = some operation)
    (hkind : operation = findByIdCommand ∨ operation = removeCommand)
    (hfile : args fileNameFlag = some fileName) (hfne : fileName ≠ "")
    (hid : args idFlag = some "") :
    ((Perform (mkArgs "add" noIdItem "users.json" "") [] emptyWorld).err = none ∧
      (Perform (mkArgs "add" noIdItem "users.json" "") [] emptyWorld).world.files "users.json"
        = File.content "[\x7b\"id\":\"\",\"email\":\"a@b.com\",\"age\":1\x7d]" ∧
      getUsersFromFile "users.json"
        (Perform (mkArgs "add" noIdItem "users.json" "") [] emptyWorld).world
          = Except.ok [⟨"", "a@b.com", 1⟩]) ∧
    (Perform args writer w).err = some (Err.errorf "-id flag has to be specified") ∧
    (Perform args writer w).out = writer ∧
    (Perform args writer w).world = w := by
  refine ⟨⟨by decide, by decide, by rfl⟩, ?_⟩
  have hne : operation ≠ "" := by
    rcases hkind with h | h <;> rw [h] <;> decide
  have h1 : operation ≠ listCommand := by
    rcases hkind with h | h <;> rw [h] <;> decide
  have h2 : operation ≠ addCommand := by
    rcases hkind with h | h <;> rw [h] <;> decide
  have hv := flagValue_none args idFlag (Or.inr hid)
  unfold Perform
  simp only [flagValue_some args operationFlag operation hop hne,
    flagValue_some args fileNameFlag fileName hfile hfne, if_neg h1, if_neg h2, hv]
  rcases hkind with h | h
  · have h3 : operation ≠ removeCommand := by rw [h]; decide
    simp only [if_neg h3, if_pos h]
    exact ⟨by decide, trivial, trivial⟩
  · simp only [if_pos h]
    exact ⟨by decide, trivial, trivial⟩

theorem empty_id_unaddressable_witness :
    ((Perform (mkArgs "add" noIdItem "users.json" "") [] emptyWorld).err = none ∧
      (Perform (mkArgs "add" noIdItem "users.json" "") [] emptyWorld).world.files "users.json"
        = File.content "[\x7b\"id\":\"\",\"email\":\"a@b.com\",\"age\":1\x7d]" ∧
      getUsersFromFile "users.json"
        (Perform (mkArgs "add" noIdItem "users.json" "") [] emptyWorld).world
          = Except.ok [⟨"", "a@b.com", 1⟩]) ∧
    (Perform (mkArgs "findById" "" "users.json" "") []
      (Perform (mkArgs "add" noIdItem "users.json" "") [] emptyWorld).world).err
        = some (Err.errorf "-id flag has to be specified") ∧
    (Perform (mkArgs "findById" "" "users.json" "") []
      (Perform (mkArgs "add" noIdItem "users.json" "") [] emptyWorld).world).out = [] ∧
    (Perform (mkArgs "findById" "" "users.json" "") []
      (Perform (mkArgs "add" noIdItem "users.json" "") [] emptyWorld).world).world
        = (Perform (mkArgs "add" noIdItem "users.json" "") [] emptyWorld).world :=
  empty_id_unaddressable (mkArgs "findById" "" "users.json" "") []
    (Perform (mkArgs "add" noIdItem "users.json" "") [] emptyWorld).world "findById" "users.json"
    (by decide) (Or.inl (by decide)) (by decide) (by decide) (by decide)

/-- C19 as stated fails for a call that names no store: with operation `remove`,
the empty id and an empty `fileName`, `Perform` returns
`-fileName flag has to be specified`, the check of `fileName` coming first. -/
theorem empty_id_unaddressable_counterexample :
    (mkArgs "remove" "" "" "") operationFlag = some "remove" ∧
    (mkArgs "remove" "" "" "") idFlag = some "" ∧
    (Perform (mkArgs "remove" "" "" "") [] emptyWorld).err
      = some (Err.errorf "-fileName flag has to be specified") ∧
    (Perform (mkArgs "remove" "" "" "") [] emptyWorld).err
      ≠ some (Err.errorf "-id flag has to be specified") :=
  ⟨by decide, by decide, by decide, by decide⟩

end Store
